import Mathlib

/-!
Verification of the go-protoparser repository.

Part 1 models the parser in `src/parser.go` (package `protoparser`): a
recursive-descent parser over a token stream produced by Go's
`text/scanner`.  The lexer cursor is modelled as the list of remaining
tokens: `next` is `List.tail` (which is the identity on `[]`, exactly
matching the scanner's behaviour of staying at EOF forever), and the
current token of an empty list is the EOF pseudo-token with empty text.

Loops in the Go source that can fail to terminate (scanning for a `;` or
`}` that may never come) are given an explicit fuel parameter; `Res.oof`
(out of fuel) is returned when the fuel runs out, so `∀ fuel, … = .oof`
states that the Go loop runs forever.  All definitions are structurally
recursive, hence kernel-evaluable on concrete inputs.
-/

namespace Protoparser

/-- Token kinds as far as `parser.go` distinguishes them: it only ever
compares `lex.token` against `scanner.Comment` and `scanner.EOF`;
everything else is examined through its text. -/
inductive TKind where
  | comment
  | sym
  | eof
  deriving DecidableEq, Repr

/-- A scanned token: its kind and its literal text (`lex.text()`). -/
structure Tok where
  kind : TKind
  text : String
  deriving DecidableEq, Repr

/-- The EOF pseudo-token: `scanner.TokenText()` is empty at EOF. -/
def eofTok : Tok := ⟨.eof, ""⟩

/-- The token under the cursor; EOF once the stream is exhausted. -/
def curTok (ts : List Tok) : Tok := ts.headD eofTok

/-- Result of a parsing procedure: a value together with the remaining
tokens, an error (the Go functions return `nil, err`), or out of fuel
(the Go loop did not finish within `fuel` iterations). -/
inductive Res (α : Type) where
  | ok (a : α) (rest : List Tok)
  | err (msg : String)
  | oof
  deriving DecidableEq, Repr

/-- `Type` struct of `parser.go` (the name `Type` is reserved in Lean). -/
structure Ty where
  name : String
  isRepeated : Bool
  deriving DecidableEq, Repr

/-- `Field` struct: `Type` is a pointer in Go, hence an `Option` here. -/
structure Field where
  comments : List String
  type : Option Ty
  name : String
  deriving DecidableEq, Repr

/-- `Oneof` struct. -/
structure Oneof where
  comments : List String
  name : String
  fields : List Field
  deriving DecidableEq, Repr

/-- `EnumField` struct. -/
structure EnumField where
  comments : List String
  name : String
  deriving DecidableEq, Repr

/-- `Enum` struct. -/
structure Enum where
  comments : List String
  name : String
  enumFields : List EnumField
  deriving DecidableEq, Repr

/-- `Message` struct. -/
structure Message where
  comments : List String
  name : String
  fields : List Field
  nests : List Message
  enums : List Enum
  oneofs : List Oneof

/-- `RPC` struct: `Argument` and `Return` are pointers in Go. -/
structure RPC where
  comments : List String
  name : String
  argument : Option Ty
  ret : Option Ty
  deriving DecidableEq, Repr

/-- `Service` struct. -/
structure Service where
  comments : List String
  name : String
  rpcs : List RPC
  deriving DecidableEq, Repr

/-- `ProtocolBuffer` struct: note `Service` is a single (always non-nil)
pointer, not a list, and there are no imports or options fields. -/
structure ProtocolBuffer where
  pkg : String
  service : Service
  messages : List Message

/-- `parseComments`: collect the run of comment tokens under the cursor,
advancing past each one; stops at the first non-comment token. -/
def parseComments : List Tok → List String × List Tok
  | [] => ([], [])
  | a :: rest =>
    if a.kind = .comment then
      let r := parseComments rest
      (a.text :: r.1, r.2)
    else ([], a :: rest)

/-- The `for lex.text() == "."` loop inside `parseType`: each iteration
appends the dot and the following token's text and advances by two. -/
def parseDots (s : String) : List Tok → String × List Tok
  | [] => (s, [])
  | [a] => if a.text = "." then (s ++ a.text, []) else (s, [a])
  | a :: b :: rest =>
    if a.text = "." then parseDots (s ++ a.text ++ b.text) rest
    else (s, a :: b :: rest)

/-- `parseType`: reads the current token's text, recurses under a
`repeated` modifier, then absorbs `.ident` continuations. -/
def parseType : List Tok → Ty × List Tok
  | [] => (⟨"", false⟩, [])
  | a :: rest =>
    if a.text = "repeated" then
      let (t, r) := parseType rest
      (⟨t.name, true⟩, r)
    else
      let (s, r) := parseDots a.text rest
      (⟨s, false⟩, r)

/-- The `for lex.text() != ";" { lex.next() }; lex.next()` idiom
(`parseEnumField`'s tail): skip to the `;` and consume it.  `none` means
the fuel ran out; at EOF the Go loop never exits, since `lex.next()` is
a no-op there and the EOF text `""` never equals `";"`. -/
def skipPastSemi : Nat → List Tok → Option (List Tok)
  | 0, _ => none
  | fuel + 1, ts =>
    if (curTok ts).text = ";" then some ts.tail
    else skipPastSemi fuel ts.tail

/-- The `for lex.text() != ";"` loop of `parseField`, carrying the
partially built field (`Type` pointer and `Name`). -/
def parseFieldLoop : Nat → Option Ty → String → List Tok → Res (Option Ty × String)
  | 0, _, _, _ => .oof
  | fuel + 1, ty, nm, ts =>
    if (curTok ts).text = ";" then .ok (ty, nm) ts.tail
    else
      match ty with
      | none =>
        let (t, r) := parseType ts
        parseFieldLoop fuel (some t) nm r
      | some t =>
        if nm = "" then parseFieldLoop fuel (some t) (curTok ts).text ts.tail
        else parseFieldLoop fuel (some t) nm ts.tail

/-- `parseField`: `type name = number validator';'`.  Comments are
attached by the caller (`parseMessageContent`). -/
def parseField (fuel : Nat) (ts : List Tok) : Res Field :=
  match parseFieldLoop fuel none "" ts with
  | .ok (ty, nm) r => .ok ⟨[], ty, nm⟩ r
  | .err e => .err e
  | .oof => .oof

/-- The `for lex.text() != "}"` loop of `parseRPC`, filling name,
argument and return type in that order; consumes the closing `}`. -/
def parseRPCLoop : Nat → String → Option Ty → Option Ty → List Tok → Res RPC
  | 0, _, _, _, _ => .oof
  | fuel + 1, nm, arg, ret, ts =>
    if (curTok ts).text = "\x7d" then .ok ⟨[], nm, arg, ret⟩ ts.tail
    else
      if nm = "" then parseRPCLoop fuel (curTok ts).text arg ret ts.tail
      else
        match arg with
        | none =>
          let (t, r) := parseType ts.tail
          parseRPCLoop fuel nm (some t) ret r.tail
        | some _ =>
          match ret with
          | none =>
            let (t, r) := parseType ts.tail.tail
            parseRPCLoop fuel nm arg (some t) r.tail.tail
          | some _ => parseRPCLoop fuel nm arg ret ts.tail

/-- `parseRPC` (entered after the `rpc` keyword has been consumed). -/
def parseRPC (fuel : Nat) (ts : List Tok) : Res RPC :=
  parseRPCLoop fuel "" none none ts

/-- `parseEnumField`: requires a leading comment run, takes the next
token's text as the name, then skips to and past the `;`. -/
def parseEnumField (fuel : Nat) (ts : List Tok) : Res EnumField :=
  if (curTok ts).kind = .comment then
    let (cs, r) := parseComments ts
    match skipPastSemi fuel r with
    | some r2 => .ok ⟨cs, (curTok r).text⟩ r2
    | none => .oof
  else .err ("not found comment, text=" ++ (curTok ts).text)

/-- `parseEnumContent`: enum fields until the closing `}` (left for the
caller to consume). -/
def parseEnumContent : Nat → List EnumField → List Tok → Res (List EnumField)
  | 0, _, _ => .oof
  | fuel + 1, acc, ts =>
    if (curTok ts).text = "\x7d" then .ok acc ts
    else
      match parseEnumField fuel ts with
      | .ok f r => parseEnumContent fuel (acc ++ [f]) r
      | .err e => .err e
      | .oof => .oof

/-- `parseEnum`: keyword check, name, blind consumption of `{`, content,
blind consumption of `}`. -/
def parseEnum (fuel : Nat) (ts : List Tok) : Res Enum :=
  if (curTok ts).text = "enum" then
    let name := (curTok ts.tail).text
    match parseEnumContent fuel [] ts.tail.tail.tail with
    | .ok fs r => .ok ⟨[], name, fs⟩ r.tail
    | .err e => .err e
    | .oof => .oof
  else .err ("not found enum, text=" ++ (curTok ts).text)

/-- `parseMessageContent`: body elements until `}` (left for the caller
to consume); every element must be preceded by a comment run, then the
dispatch is on the token text.  The nested `message` and `oneof` cases
inline the bodies of `parseMessage` and `parseOneof` (which are thin
wrappers around this very function, see below) so that the recursion is
structural on the fuel. -/
def parseMessageContent :
    Nat → List Field → List Message → List Enum → List Oneof → List Tok →
    Res (List Field × List Message × List Enum × List Oneof)
  | 0, _, _, _, _, _ => .oof
  | fuel + 1, fs, ms, es, os, ts =>
    if (curTok ts).text = "\x7d" then .ok (fs, ms, es, os) ts
    else
      if (curTok ts).kind = .comment then
        let (cs, r) := parseComments ts
        match (curTok r).text with
        | "message" =>
          -- inlined `parseMessage` body (keyword already matched)
          let name := (curTok r.tail).text
          match parseMessageContent fuel [] [] [] [] r.tail.tail.tail with
          | .ok (fs2, ms2, es2, os2) r2 =>
            parseMessageContent fuel fs (ms ++ [⟨cs, name, fs2, ms2, es2, os2⟩]) es os r2.tail
          | .err e => .err e
          | .oof => .oof
        | "enum" =>
          match parseEnum fuel r with
          | .ok e r2 =>
            parseMessageContent fuel fs ms (es ++ [{ e with comments := e.comments ++ cs }]) os r2
          | .err e => .err e
          | .oof => .oof
        | "oneof" =>
          -- inlined `parseOneof` body (keyword already matched)
          let name := (curTok r.tail).text
          match parseMessageContent fuel [] [] [] [] r.tail.tail.tail with
          | .ok (fs2, _, _, _) r2 =>
            parseMessageContent fuel fs ms es (os ++ [⟨cs, name, fs2⟩]) r2.tail
          | .err e => .err e
          | .oof => .oof
        | _ =>
          match parseField fuel r with
          | .ok f r2 =>
            parseMessageContent fuel (fs ++ [{ f with comments := f.comments ++ cs }]) ms es os r2
          | .err e => .err e
          | .oof => .oof
      else .err ("not found comment, text=" ++ (curTok ts).text)

/-- `parseMessage`: keyword check, name, blind `{`, content, blind `}`. -/
def parseMessage (fuel : Nat) (ts : List Tok) : Res Message :=
  if (curTok ts).text = "message" then
    let name := (curTok ts.tail).text
    match parseMessageContent fuel [] [] [] [] ts.tail.tail.tail with
    | .ok (fs, ms, es, os) r => .ok ⟨[], name, fs, ms, es, os⟩ r.tail
    | .err e => .err e
    | .oof => .oof
  else .err ("not found message, text=" ++ (curTok ts).text)

/-- `parseOneof`: like `parseMessage` but keeps only the fields of the
parsed body, silently discarding nested messages, enums and oneofs. -/
def parseOneof (fuel : Nat) (ts : List Tok) : Res Oneof :=
  if (curTok ts).text = "oneof" then
    let name := (curTok ts.tail).text
    match parseMessageContent fuel [] [] [] [] ts.tail.tail.tail with
    | .ok (fs, _, _, _) r => .ok ⟨[], name, fs⟩ r.tail
    | .err e => .err e
    | .oof => .oof
  else .err ("not found oneof, text=" ++ (curTok ts).text)

/-- `parseServiceContent`: `rpc` elements until `}` (left for the
caller); each must be preceded by a comment run. -/
def parseServiceContent : Nat → List RPC → List Tok → Res (List RPC)
  | 0, _, _ => .oof
  | fuel + 1, acc, ts =>
    if (curTok ts).text = "\x7d" then .ok acc ts
    else
      if (curTok ts).kind = .comment then
        let (cs, r) := parseComments ts
        if (curTok r).text = "rpc" then
          match parseRPC fuel r.tail with
          | .ok rpc r2 =>
            parseServiceContent fuel (acc ++ [{ rpc with comments := rpc.comments ++ cs }]) r2
          | .err e => .err e
          | .oof => .oof
        else .err ("not found rpc, text=" ++ (curTok r).text)
      else .err ("not found comment, text=" ++ (curTok ts).text)

/-- `parseService`: keyword check, name, blind `{`, content, blind `}`. -/
def parseService (fuel : Nat) (ts : List Tok) : Res Service :=
  if (curTok ts).text = "service" then
    let name := (curTok ts.tail).text
    match parseServiceContent fuel [] ts.tail.tail.tail with
    | .ok rpcs r => .ok ⟨[], name, rpcs⟩ r.tail
    | .err e => .err e
    | .oof => .oof
  else .err ("[BUG] not found service, text=" ++ (curTok ts).text)

/-- `parsePackage`: keyword check, then returns the next token's text as
the package name, leaving the cursor on that name token. -/
def parsePackage (ts : List Tok) : Res String :=
  if (curTok ts).text = "package" then .ok (curTok ts.tail).text ts.tail
  else .err ("[BUG] not found package, text=" ++ (curTok ts).text)

/-- The `for lex.token != scanner.EOF` loop of `parse`: collect leading
comments, dispatch on the token text; `package` sets the package name,
`service` overwrites the single service slot, `message` appends, and
anything else is skipped by advancing one token. -/
def parseLoop : Nat → String → Service → List Message → List Tok → Res ProtocolBuffer
  | 0, _, _, _, _ => .oof
  | fuel + 1, pkg, svc, msgs, ts =>
    if (curTok ts).kind = .eof then .ok ⟨pkg, svc, msgs⟩ ts
    else
      let (cs, r) := parseComments ts
      match (curTok r).text with
      | "package" =>
        match parsePackage r with
        | .ok p r2 => parseLoop fuel p svc msgs r2
        | .err e => .err e
        | .oof => .oof
      | "service" =>
        match parseService fuel r with
        | .ok s r2 => parseLoop fuel pkg { s with comments := s.comments ++ cs } msgs r2
        | .err e => .err e
        | .oof => .oof
      | "message" =>
        match parseMessage fuel r with
        | .ok m r2 => parseLoop fuel pkg svc (msgs ++ [{ m with comments := m.comments ++ cs }]) r2
        | .err e => .err e
        | .oof => .oof
      | _ => parseLoop fuel pkg svc msgs r.tail

/-- `Parse` on an already-scanned token stream, with fuel ample for any
input whose parse terminates. -/
def Parse (ts : List Tok) : Res ProtocolBuffer :=
  parseLoop (4 * ts.length + 16) "" ⟨[], "", []⟩ [] ts

/-- Shorthand for building a non-comment token. -/
def sym (s : String) : Tok := ⟨.sym, s⟩

/-- Shorthand for building a comment token. -/
def cmt (s : String) : Tok := ⟨.comment, s⟩

/-- No token of the stream is a `;`: the exit condition of the Go
scan-to-terminator loops never becomes true. -/
def NoSemi (ts : List Tok) : Prop := ∀ t ∈ ts, t.text ≠ ";"

instance (ts : List Tok) : Decidable (NoSemi ts) :=
  inferInstanceAs (Decidable (∀ t ∈ ts, t.text ≠ ";"))

/-- `parseField` on a stream with no remaining `;` never returns, for
any amount of fuel: the Go parser hangs. -/
def ParseFieldDiverges (ts : List Tok) : Prop :=
  ∀ fuel, parseField fuel ts = .oof

/-- A concrete malformed file: the message body element `x` has no
leading comment, so `parseMessage` fails. -/
def badMsgToks : List Tok := [sym "message", sym "M", sym "\x7b", sym "x", sym "\x7d"]

/-- A file declaring two services, each with the comments the grammar
demands; used to exhibit that only the second service is recorded. -/
def twoServiceToks : List Tok :=
  [cmt "//s1", sym "service", sym "A", sym "\x7b", cmt "//r", sym "rpc",
    sym "Ping", sym "(", sym "T", sym ")", sym "returns", sym "(", sym "U", sym ")",
    sym "\x7b", sym "\x7d", sym "\x7d", cmt "//s2", sym "service", sym "B", sym "\x7b", sym "\x7d"]

/-- A oneof body containing a nested message `N` and one field `x`. -/
def oneofNestedToks : List Tok :=
  [sym "oneof", sym "o", sym "\x7b", cmt "//c", sym "message", sym "N", sym "\x7b", sym "\x7d",
    cmt "//d", sym "int32", sym "x", sym "=", sym "1", sym ";", sym "\x7d"]

end Protoparser

/-!
Part 2 models, from the specification, the position-stamping parser whose
implementation is not part of the shown source: the repository contains
only its tests (`src/unnamed/part_000`, `part_001`, which exercise
`parser.ParseMessage` / `parser.ParseOption` with `meta.Position`
expectations).  Everything in the `SpecParser` namespace is modelled from
the spec, faithful to its words: the token source and position tracker of
spec section 4.1, the comment collector of 4.2, and the grammar
productions of sections 4.4 to 4.9.  Offsets are 1-based byte positions,
matching the spec's concrete example "a message opening at byte offset 2,
line 2, column 1" for an input whose first character is a newline.
-/

namespace SpecParser

inductive SKind where
  | ident
  | int
  | str
  | punct
  | comment
  deriving DecidableEq, Repr

structure SPos where
  offset : Nat
  line : Nat
  column : Nat
  deriving DecidableEq, Repr

structure STok where
  kind : SKind
  text : String
  pos : SPos
  deriving DecidableEq, Repr

/-- Modelled from the spec: identifier start characters of the external
token source (spec section 4.1; the scanner internals are out of scope,
so this is the conventional letter-or-underscore rule). -/
def isIdentStart (c : Char) : Bool := c.isAlpha || c = '_'

/-- Modelled from the spec: identifier continuation characters. -/
def isIdentChar (c : Char) : Bool := c.isAlphanum || c = '_'

/-- Modelled from the spec: the token source plus position tracker of
spec section 4.1, missing from the shown source.  Splits the input into
identifier, integer, string-literal, punctuation and comment tokens,
each stamped with 1-based byte offset, 1-based line and 1-based column
of its first character.  The fuel is one more than the character count;
every step consumes at least one character. -/
def lexGo : Nat → List Char → Nat → Nat → Nat → List STok
  | 0, _, _, _, _ => []
  | fuel + 1, cs, off, ln, col =>
    match cs with
    | [] => []
    | c :: cs' =>
      if c = '\n' then lexGo fuel cs' (off + 1) (ln + 1) 1
      else if c = ' ' ∨ c = '\t' ∨ c = '\r' then lexGo fuel cs' (off + 1) ln (col + 1)
      else if c = '/' ∧ cs'.head? = some '/' then
        let body := cs'.tail.takeWhile (fun d => d ≠ '\n')
        ⟨.comment, "//" ++ String.mk body, ⟨off, ln, col⟩⟩ ::
          lexGo fuel (cs'.tail.dropWhile (fun d => d ≠ '\n'))
            (off + 2 + body.length) ln (col + 2 + body.length)
      else if isIdentStart c then
        let body := cs'.takeWhile isIdentChar
        ⟨.ident, String.mk (c :: body), ⟨off, ln, col⟩⟩ ::
          lexGo fuel (cs'.dropWhile isIdentChar)
            (off + 1 + body.length) ln (col + 1 + body.length)
      else if c.isDigit then
        let body := cs'.takeWhile Char.isDigit
        ⟨.int, String.mk (c :: body), ⟨off, ln, col⟩⟩ ::
          lexGo fuel (cs'.dropWhile Char.isDigit)
            (off + 1 + body.length) ln (col + 1 + body.length)
      else if c = '"' then
        let body := cs'.takeWhile (fun d => d ≠ '"')
        ⟨.str, "\"" ++ String.mk body ++ "\"", ⟨off, ln, col⟩⟩ ::
          lexGo fuel (cs'.dropWhile (fun d => d ≠ '"')).tail
            (off + 2 + body.length) ln (col + 2 + body.length)
      else
        ⟨.punct, String.mk [c], ⟨off, ln, col⟩⟩ :: lexGo fuel cs' (off + 1) ln (col + 1)

/-- Modelled from the spec: tokenize a whole input string. -/
def lexSpec (s : String) : List STok := lexGo (s.length + 1) s.data 1 1 1

structure SComment where
  raw : String
  pos : SPos
  deriving DecidableEq, Repr

structure SOption where
  optionName : String
  constant : String
  comments : List SComment
  pos : SPos
  deriving DecidableEq, Repr

structure SField where
  isRepeated : Bool
  type : String
  fieldName : String
  fieldNumber : String
  comments : List SComment
  pos : SPos
  deriving DecidableEq, Repr

structure SMapField where
  keyType : String
  type : String
  mapName : String
  fieldNumber : String
  comments : List SComment
  pos : SPos
  deriving DecidableEq, Repr

structure SEnumField where
  fieldName : String
  fieldNumber : String
  comments : List SComment
  pos : SPos
  deriving DecidableEq, Repr

inductive SEnumElem where
  | opt (o : SOption)
  | fld (f : SEnumField)
  deriving DecidableEq, Repr

structure SEnum where
  enumName : String
  body : List SEnumElem
  comments : List SComment
  pos : SPos
  deriving DecidableEq, Repr

structure SOneofField where
  type : String
  fieldName : String
  fieldNumber : String
  comments : List SComment
  pos : SPos
  deriving DecidableEq, Repr

structure SOneof where
  oneofName : String
  fields : List SOneofField
  comments : List SComment
  pos : SPos
  deriving DecidableEq, Repr

structure SReserved where
  items : List String
  comments : List SComment
  pos : SPos
  deriving DecidableEq, Repr

mutual
inductive SMessage where
  | mk (messageName : String) (body : List SBodyElem) (comments : List SComment) (pos : SPos)

inductive SBodyElem where
  | opt (o : SOption)
  | fld (f : SField)
  | mapFld (m : SMapField)
  | msg (m : SMessage)
  | enm (e : SEnum)
  | one (o : SOneof)
  | rsv (r : SReserved)
end

def SMessage.messageName : SMessage → String
  | .mk n _ _ _ => n

def SMessage.body : SMessage → List SBodyElem
  | .mk _ b _ _ => b

def SMessage.comments : SMessage → List SComment
  | .mk _ _ cs _ => cs

def SMessage.pos : SMessage → SPos
  | .mk _ _ _ p => p

inductive SRes (α : Type) where
  | ok (a : α) (rest : List STok)
  | err (msg : String)
  | oof

/-- Modelled from the spec: the comment collector of spec section 4.2,
collecting the maximal run of comment tokens at the cursor. -/
def parseCommentsS : List STok → List SComment × List STok
  | [] => ([], [])
  | a :: rest =>
    if a.kind = .comment then
      let r := parseCommentsS rest
      (⟨a.text, a.pos⟩ :: r.1, r.2)
    else ([], a :: rest)

/-- Modelled from the spec: absorb `.identifier` continuations of a
dotted full-identifier (spec sections 4.4 and 4.5). -/
def parseDotIdentsS (acc : String) : List STok → String × List STok
  | [] => (acc, [])
  | a :: rest =>
    if a.text = "." then
      match rest with
      | [] => (acc ++ ".", [])
      | b :: rest2 => parseDotIdentsS (acc ++ "." ++ b.text) rest2
    else (acc, a :: rest)

/-- Modelled from the spec: the parenthesized extension-name part of an
option name, accumulated textually (spec section 4.4 step 2). -/
def collectParenS (acc : String) : List STok → SRes String
  | [] => .err "unexpected end of input in option name"
  | a :: rest =>
    if a.text = ")" then .ok (acc ++ ")") rest
    else collectParenS (acc ++ a.text) rest

/-- Modelled from the spec: an option name, either a dotted identifier
or a parenthesized extension name (spec section 4.4 step 2). -/
def parseOptionNameS : List STok → SRes String
  | [] => .err "unexpected end of input: expected option name"
  | a :: rest =>
    if a.text = "(" then
      match collectParenS "(" rest with
      | .ok nm r =>
        let (nm2, r2) := parseDotIdentsS nm r
        .ok nm2 r2
      | .err e => .err e
      | .oof => .oof
    else if a.kind = .ident then
      let (nm, r) := parseDotIdentsS a.text rest
      .ok nm r
    else .err ("unexpected token in option name: " ++ a.text)

/-- Modelled from the spec: the Option production of spec section 4.4,
missing from the shown source; stamps the position of the `option`
keyword token. -/
def parseOptionS : List STok → SRes SOption
  | [] => .err "unexpected end of input: expected option"
  | a :: rest =>
    if a.text = "option" then
      match parseOptionNameS rest with
      | .ok nm r =>
        match r with
        | [] => .err "unexpected end of input: expected ="
        | b :: r2 =>
          if b.text = "=" then
            match r2 with
            | [] => .err "unexpected end of input: expected constant"
            | c :: r3 =>
              match r3 with
              | [] => .err "unexpected end of input: expected ;"
              | d :: r4 =>
                if d.text = ";" then .ok ⟨nm, c.text, [], a.pos⟩ r4
                else .err ("expected ; but found " ++ d.text)
          else .err ("expected = but found " ++ b.text)
      | .err e => .err e
      | .oof => .oof
    else .err ("expected option but found " ++ a.text)

/-- Modelled from the spec: opaque skipping of bracketed field options
(spec section 4.5). -/
def skipBracketsS : List STok → SRes Unit
  | [] => .err "unexpected end of input in bracketed options"
  | a :: rest =>
    if a.text = "]" then .ok () rest
    else skipBracketsS rest

/-- Modelled from the spec: the mandatory statement terminator. -/
def expectSemiS : List STok → SRes Unit
  | [] => .err "unexpected end of input: expected ;"
  | a :: rest =>
    if a.text = ";" then .ok () rest
    else .err ("expected ; but found " ++ a.text)

/-- Modelled from the spec: the common `name = number [options] ;` tail
of field-like productions (spec section 4.5). -/
def parseFieldTailS : List STok → SRes (String × String)
  | [] => .err "unexpected end of input: expected field name"
  | nm :: r1 =>
    match r1 with
    | [] => .err "unexpected end of input: expected ="
    | eq :: r2 =>
      if eq.text = "=" then
        match r2 with
        | [] => .err "unexpected end of input: expected field number"
        | num :: r3 =>
          match r3 with
          | [] => .err "unexpected end of input: expected ;"
          | br :: r4 =>
            if br.text = "[" then
              match skipBracketsS r4 with
              | .ok _ r5 =>
                match expectSemiS r5 with
                | .ok _ r6 => .ok (nm.text, num.text) r6
                | .err e => .err e
                | .oof => .oof
              | .err e => .err e
              | .oof => .oof
            else
              match expectSemiS r3 with
              | .ok _ r6 => .ok (nm.text, num.text) r6
              | .err e => .err e
              | .oof => .oof
      else .err ("expected = but found " ++ eq.text)

/-- Modelled from the spec: type identifier (dotted) followed by the
field tail; stamps the supplied construct position. -/
def parseTypedTailS (isRep : Bool) (pos : SPos) (tyTok : STok) (r : List STok) : SRes SField :=
  if tyTok.kind = .ident then
    let (tyName, r1) := parseDotIdentsS tyTok.text r
    match parseFieldTailS r1 with
    | .ok (nm, num) r2 => .ok ⟨isRep, tyName, nm, num, [], pos⟩ r2
    | .err e => .err e
    | .oof => .oof
  else .err ("expected type but found " ++ tyTok.text)

/-- Modelled from the spec: the Field production of spec section 4.5,
missing from the shown source; an optional `repeated` modifier, then
type, name, number; stamped at the construct's first token. -/
def parseFieldS : List STok → SRes SField
  | [] => .err "unexpected end of input: expected field"
  | a :: rest =>
    if a.text = "repeated" then
      match rest with
      | [] => .err "unexpected end of input: expected type"
      | b :: r1 => parseTypedTailS true a.pos b r1
    else parseTypedTailS false a.pos a rest

/-- Modelled from the spec: the MapField production of spec section 4.5,
missing from the shown source: `map < key , value > name = number ;`,
stamped at the `map` token. -/
def parseMapFieldS : List STok → SRes SMapField
  | a :: lt :: k :: comma :: v :: gt :: r =>
    if a.text = "map" ∧ lt.text = "<" ∧ comma.text = "," ∧ gt.text = ">" then
      match parseFieldTailS r with
      | .ok (nm, num) r2 => .ok ⟨k.text, v.text, nm, num, [], a.pos⟩ r2
      | .err e => .err e
      | .oof => .oof
    else .err "malformed map field"
  | _ => .err "unexpected end of input: expected map field"

/-- Modelled from the spec: an EnumField `name = number [options] ;`
(spec section 4.6), stamped at the name token. -/
def parseEnumFieldS : List STok → SRes SEnumField
  | [] => .err "unexpected end of input: expected enum field"
  | a :: rest =>
    match parseFieldTailS (a :: rest) with
    | .ok (nm, num) r => .ok ⟨nm, num, [], a.pos⟩ r
    | .err e => .err e
    | .oof => .oof

/-- Modelled from the spec: the enum body loop of spec section 4.6,
admitting Option and EnumField elements, with leading comments. -/
def parseEnumBodyS : Nat → List SEnumElem → List STok → SRes (List SEnumElem)
  | 0, _, _ => .oof
  | fuel + 1, acc, ts =>
    let (cs, r) := parseCommentsS ts
    match r with
    | [] => .err "unexpected end of input in enum body"
    | a :: _ =>
      if a.text = "\x7d" then .ok acc r.tail
      else if a.text = "option" then
        match parseOptionS r with
        | .ok o r2 => parseEnumBodyS fuel (acc ++ [.opt { o with comments := cs }]) r2
        | .err e => .err e
        | .oof => .oof
      else
        match parseEnumFieldS r with
        | .ok f r2 => parseEnumBodyS fuel (acc ++ [.fld { f with comments := cs }]) r2
        | .err e => .err e
        | .oof => .oof

/-- Modelled from the spec: the Enum production of spec section 4.6,
missing from the shown source; stamped at the `enum` token. -/
def parseEnumS (fuel : Nat) : List STok → SRes SEnum
  | [] => .err "unexpected end of input: expected enum"
  | a :: rest =>
    if a.text = "enum" then
      match rest with
      | nm :: lb :: r =>
        if lb.text = "\x7b" then
          match parseEnumBodyS fuel [] r with
          | .ok body r2 => .ok ⟨nm.text, body, [], a.pos⟩ r2
          | .err e => .err e
          | .oof => .oof
        else .err ("expected \x7b but found " ++ lb.text)
      | _ => .err "unexpected end of input: expected enum name"
    else .err ("expected enum but found " ++ a.text)

/-- Modelled from the spec: a OneofField, same shape as Field without
`repeated` (spec section 4.7), stamped at its type token. -/
def parseOneofFieldS : List STok → SRes SOneofField
  | [] => .err "unexpected end of input: expected oneof field"
  | a :: rest =>
    if a.kind = .ident then
      let (ty, r1) := parseDotIdentsS a.text rest
      match parseFieldTailS r1 with
      | .ok (nm, num) r2 => .ok ⟨ty, nm, num, [], a.pos⟩ r2
      | .err e => .err e
      | .oof => .oof
    else .err ("expected type but found " ++ a.text)

/-- Modelled from the spec: the oneof body loop of spec section 4.7. -/
def parseOneofBodyS : Nat → List SOneofField → List STok → SRes (List SOneofField)
  | 0, _, _ => .oof
  | fuel + 1, acc, ts =>
    let (cs, r) := parseCommentsS ts
    match r with
    | [] => .err "unexpected end of input in oneof body"
    | a :: _ =>
      if a.text = "\x7d" then .ok acc r.tail
      else
        match parseOneofFieldS r with
        | .ok f r2 => parseOneofBodyS fuel (acc ++ [{ f with comments := cs }]) r2
        | .err e => .err e
        | .oof => .oof

/-- Modelled from the spec: the Oneof production of spec section 4.7,
missing from the shown source; stamped at the `oneof` token. -/
def parseOneofS (fuel : Nat) : List STok → SRes SOneof
  | [] => .err "unexpected end of input: expected oneof"
  | a :: rest =>
    if a.text = "oneof" then
      match rest with
      | nm :: lb :: r =>
        if lb.text = "\x7b" then
          match parseOneofBodyS fuel [] r with
          | .ok fs r2 => .ok ⟨nm.text, fs, [], a.pos⟩ r2
          | .err e => .err e
          | .oof => .oof
        else .err ("expected \x7b but found " ++ lb.text)
      | _ => .err "unexpected end of input: expected oneof name"
    else .err ("expected oneof but found " ++ a.text)

/-- Modelled from the spec: the comma-separated reserved list up to the
terminator (spec section 4.9), stored as opaque strings. -/
def collectReservedS : List STok → SRes (List String)
  | [] => .err "unexpected end of input in reserved"
  | a :: rest =>
    if a.text = ";" then .ok [] rest
    else if a.text = "," then collectReservedS rest
    else
      match collectReservedS rest with
      | .ok items r => .ok (a.text :: items) r
      | .err e => .err e
      | .oof => .oof

/-- Modelled from the spec: the Reserved production of spec section 4.9,
stamped at the `reserved` token. -/
def parseReservedS : List STok → SRes SReserved
  | [] => .err "unexpected end of input: expected reserved"
  | a :: rest =>
    if a.text = "reserved" then
      match collectReservedS rest with
      | .ok items r => .ok ⟨items, [], a.pos⟩ r
      | .err e => .err e
      | .oof => .oof
    else .err ("expected reserved but found " ++ a.text)

/-- Modelled from the spec: the message body loop of spec section 4.5,
missing from the shown source: collect leading comments, stop at `}`,
dispatch on the token text (with the two-token lookahead `map` `<` for
map fields), attach comments to the produced element, preserve
declaration order.  The nested `message` case inlines the message
production so that the recursion is structural on the fuel. -/
def parseBodyS : Nat → List SBodyElem → List STok → SRes (List SBodyElem)
  | 0, _, _ => .oof
  | fuel + 1, acc, ts =>
    let (cs, r) := parseCommentsS ts
    match r with
    | [] => .err "unexpected end of input in message body"
    | a :: rest =>
      if a.text = "\x7d" then .ok acc rest
      else if a.text = "option" then
        match parseOptionS r with
        | .ok o r2 => parseBodyS fuel (acc ++ [.opt { o with comments := cs }]) r2
        | .err e => .err e
        | .oof => .oof
      else if a.text = "message" then
        match rest with
        | nm :: lb :: r2 =>
          if lb.text = "\x7b" then
            match parseBodyS fuel [] r2 with
            | .ok body r3 => parseBodyS fuel (acc ++ [.msg (.mk nm.text body cs a.pos)]) r3
            | .err e => .err e
            | .oof => .oof
          else .err ("expected \x7b but found " ++ lb.text)
        | _ => .err "unexpected end of input: expected message name"
      else if a.text = "enum" then
        match parseEnumS fuel r with
        | .ok e r2 => parseBodyS fuel (acc ++ [.enm { e with comments := cs }]) r2
        | .err e => .err e
        | .oof => .oof
      else if a.text = "oneof" then
        match parseOneofS fuel r with
        | .ok o r2 => parseBodyS fuel (acc ++ [.one { o with comments := cs }]) r2
        | .err e => .err e
        | .oof => .oof
      else if a.text = "reserved" then
        match parseReservedS r with
        | .ok v r2 => parseBodyS fuel (acc ++ [.rsv { v with comments := cs }]) r2
        | .err e => .err e
        | .oof => .oof
      else if a.text = "map" ∧ rest.head?.map STok.text = some "<" then
        match parseMapFieldS r with
        | .ok m r2 => parseBodyS fuel (acc ++ [.mapFld { m with comments := cs }]) r2
        | .err e => .err e
        | .oof => .oof
      else
        match parseFieldS r with
        | .ok f r2 => parseBodyS fuel (acc ++ [.fld { f with comments := cs }]) r2
        | .err e => .err e
        | .oof => .oof

/-- Modelled from the spec: the Message production of spec section 4.5
and entry point of spec section 6, missing from the shown source;
stamped at the `message` keyword token. -/
def parseMessageS (fuel : Nat) : List STok → SRes SMessage
  | [] => .err "unexpected end of input: expected message"
  | a :: rest =>
    if a.text = "message" then
      match rest with
      | nm :: lb :: r =>
        if lb.text = "\x7b" then
          match parseBodyS fuel [] r with
          | .ok body r2 => .ok (.mk nm.text body [] a.pos) r2
          | .err e => .err e
          | .oof => .oof
        else .err ("expected \x7b but found " ++ lb.text)
      | _ => .err "unexpected end of input: expected message name"
    else .err ("expected message but found " ++ a.text)

/-- Modelled from the spec: `ParseMessage` entry point (spec section 6)
applied to a raw input string. -/
def ParseMessageSpec (s : String) : SRes SMessage :=
  parseMessageS (4 * (lexSpec s).length + 16) (lexSpec s)

/-- Modelled from the spec: `ParseOption` entry point (spec section 6)
applied to a raw input string. -/
def ParseOptionSpec (s : String) : SRes SOption :=
  parseOptionS (lexSpec s)

/-- The positions of all non-comment (significant) tokens of a stream
satisfy `P`. -/
def SigP (P : SPos → Prop) (ts : List STok) : Prop :=
  ∀ tk ∈ ts, tk.kind ≠ .comment → P tk.pos

/-- `P` holds at the position of an enum body element. -/
def enumElemP (P : SPos → Prop) : SEnumElem → Prop
  | .opt o => P o.pos
  | .fld f => P f.pos

mutual
/-- `P` holds at the positions of a message node and of every node
nested inside its body, recursively. -/
def msgAllP (P : SPos → Prop) : SMessage → Prop
  | .mk _ body _ p => P p ∧ elemsAllP P body

def elemsAllP (P : SPos → Prop) : List SBodyElem → Prop
  | [] => True
  | e :: rest => elemAllP P e ∧ elemsAllP P rest

def elemAllP (P : SPos → Prop) : SBodyElem → Prop
  | .opt o => P o.pos
  | .fld f => P f.pos
  | .mapFld m => P m.pos
  | .msg m => msgAllP P m
  | .enm e => P e.pos ∧ ∀ el ∈ e.body, enumElemP P el
  | .one o => P o.pos ∧ ∀ f ∈ o.fields, P f.pos
  | .rsv v => P v.pos
end

/-- The stream from its first significant (non-comment) token onwards:
exactly where the comment collector leaves the cursor. -/
def firstSig (ts : List STok) : List STok :=
  ts.dropWhile fun tk => tk.kind == SKind.comment

/-- The position stamped on a message-body element, whichever kind of
node it is. -/
def elemPos : SBodyElem → SPos
  | .opt o => o.pos
  | .fld f => f.pos
  | .mapFld m => m.pos
  | .msg m => m.pos
  | .enm e => e.pos
  | .one o => o.pos
  | .rsv v => v.pos

/-- The position stamped on an enum-body element. -/
def enumElemPos : SEnumElem → SPos
  | .opt o => o.pos
  | .fld f => f.pos

/-- A concrete token stream `enum E \x7b \x7d` used by the C3 witness. -/
def enumWitnessToks : List STok :=
  [⟨.ident, "enum", ⟨3, 1, 3⟩⟩, ⟨.ident, "E", ⟨8, 1, 8⟩⟩,
    ⟨.punct, "\x7b", ⟨10, 1, 10⟩⟩, ⟨.punct, "\x7d", ⟨12, 1, 12⟩⟩]

end SpecParser

namespace Protoparser

theorem curTok_nil : curTok [] = eofTok := rfl

theorem curTok_cons (a : Tok) (rest : List Tok) : curTok (a :: rest) = a := rfl

/-- The remaining tokens after the dot-absorbing loop are a suffix of
those it started from. -/
theorem parseDots_suffix : ∀ (ts : List Tok) (s : String), (parseDots s ts).2 <:+ ts
  | [], s => by simp [parseDots]
  | [a], s => by
    by_cases h : a.text = "." <;> simp [parseDots, h]
  | a :: b :: rest, s => by
    by_cases h : a.text = "."
    · have ih := parseDots_suffix rest (s ++ a.text ++ b.text)
      simp only [parseDots, if_pos h]
      exact ih.trans ((List.suffix_cons b rest).trans (List.suffix_cons a (b :: rest)))
    · simp [parseDots, h]

/-- The remaining tokens after `parseType` are a suffix of its input. -/
theorem parseType_suffix : ∀ (ts : List Tok), (parseType ts).2 <:+ ts
  | [] => by simp [parseType]
  | a :: rest => by
    by_cases h : a.text = "repeated"
    · rcases hpt : parseType rest with ⟨t, r⟩
      have ih := parseType_suffix rest
      rw [hpt] at ih
      simp only [parseType, if_pos h, hpt]
      exact ih.trans (List.suffix_cons a rest)
    · rcases hpd : parseDots a.text rest with ⟨s, r⟩
      have ih := parseDots_suffix rest a.text
      rw [hpd] at ih
      simp only [parseType, if_neg h, hpd]
      exact ih.trans (List.suffix_cons a rest)

theorem NoSemi.mono {ts ts' : List Tok} (hsuf : ts' <:+ ts) (h : NoSemi ts) : NoSemi ts' :=
  fun t ht => h t (hsuf.subset ht)

theorem NoSemi.curTok {ts : List Tok} (h : NoSemi ts) : (curTok ts).text ≠ ";" := by
  cases ts with
  | nil => decide
  | cons a rest => exact h a (List.mem_cons_self a rest)

/-- Key divergence lemma: if no `;` occurs among the remaining tokens,
the `for lex.text() != ";"` loop of `parseField` exhausts any fuel: the
Go loop runs forever (at EOF `lex.next()` no longer advances and the
loop condition stays true). -/
theorem parseFieldLoop_noSemi :
    ∀ (fuel : Nat) (ts : List Tok) (ty : Option Ty) (nm : String),
      NoSemi ts → parseFieldLoop fuel ty nm ts = .oof := by
  intro fuel
  induction fuel with
  | zero => intro ts ty nm _; rfl
  | succ n ih =>
    intro ts ty nm h
    have hcur := h.curTok
    cases ty with
    | none =>
      rcases hpt : parseType ts with ⟨t, r⟩
      have hsuf := parseType_suffix ts
      rw [hpt] at hsuf
      simp only [parseFieldLoop, if_neg hcur, hpt]
      exact ih r (some t) nm (h.mono hsuf)
    | some t =>
      by_cases hnm : nm = "" <;>
        simp only [parseFieldLoop, if_neg hcur, hnm, if_pos, if_neg, ite_true, ite_false] <;>
        exact ih _ _ _ (h.mono (List.tail_suffix ts))

/-- If a `;` does occur among the remaining tokens and the fuel exceeds
their number, the scan-to-terminator loop finds it and terminates. -/
theorem skipPastSemi_isSome :
    ∀ (ts : List Tok) (fuel : Nat), (∃ t ∈ ts, t.text = ";") → ts.length < fuel →
      (skipPastSemi fuel ts).isSome = true := by
  intro ts
  induction ts with
  | nil =>
    rintro fuel ⟨t, ht, _⟩ _
    cases ht
  | cons a rest ih =>
    rintro fuel ⟨t, ht, hsemi⟩ hlen
    match fuel with
    | 0 => exact absurd hlen (Nat.not_lt_zero _)
    | f + 1 =>
      by_cases h : a.text = ";"
      · simp [skipPastSemi, curTok_cons, h]
      · have htr : t ∈ rest := by
          rcases List.mem_cons.mp ht with rfl | hr
          · exact absurd hsemi h
          · exact hr
        simp only [skipPastSemi, curTok_cons, h, if_neg, ite_false, List.tail_cons]
        exact ih f ⟨t, htr, hsemi⟩ (by simpa using Nat.lt_of_succ_lt_succ hlen)

end Protoparser

namespace Protoparser

/-- C1 (counterexample): a message-body element, a service-body element
and an enum field, each not preceded by a comment token, all make the
parser fail with `not found comment` instead of succeeding with empty
`Comments`; the whole-file parse of `message M { int32 x = 1; }` fails
the same way. -/
theorem claim_c1_counterexample :
    Parse [sym "message", sym "M", sym "\x7b", sym "int32", sym "x", sym "=",
      sym "1", sym ";", sym "\x7d"] = .err "not found comment, text=int32" ∧
    parseMessageContent 5 [] [] [] [] [sym "int32", sym "x", sym ";", sym "\x7d"] =
      .err "not found comment, text=int32" ∧
    parseServiceContent 5 [] [sym "rpc", sym "Ping", sym "(", sym "T", sym ")", sym "\x7d"] =
      .err "not found comment, text=rpc" ∧
    parseEnumField 5 [sym "V", sym "=", sym "0", sym ";"] =
      .err "not found comment, text=V" := by
  refine ⟨rfl, rfl, rfl, rfl⟩

/-- C1 (amended): a message, service or enum body element must be
immediately preceded by at least one comment token; whenever the cursor
is not at the closing `}` and not at a comment, the body productions
return the error `not found comment` rather than parsing the element. -/
theorem claim_c1 :
    ∀ (fuel : Nat) (ts : List Tok) (fs : List Field) (ms : List Message)
      (es : List Enum) (os : List Oneof) (rpcs : List RPC),
      (curTok ts).text ≠ "\x7d" → (curTok ts).kind ≠ .comment →
      parseMessageContent (fuel + 1) fs ms es os ts =
        .err ("not found comment, text=" ++ (curTok ts).text) ∧
      parseServiceContent (fuel + 1) rpcs ts =
        .err ("not found comment, text=" ++ (curTok ts).text) ∧
      parseEnumField fuel ts =
        .err ("not found comment, text=" ++ (curTok ts).text) := by
  intro fuel ts fs ms es os rpcs hbrace hcmt
  refine ⟨?_, ?_, ?_⟩
  · simp only [parseMessageContent, if_neg hbrace, if_neg hcmt]
  · simp only [parseServiceContent, if_neg hbrace, if_neg hcmt]
  · simp only [parseEnumField, if_neg hcmt]

/-- C1 witness: the amended theorem applied to a concrete cursor state. -/
theorem claim_c1_witness :
    (curTok [sym "int32", sym "x", sym ";"]).text ≠ "\x7d" ∧
    (curTok [sym "int32", sym "x", sym ";"]).kind ≠ TKind.comment ∧
    parseMessageContent 3 [] [] [] [] [sym "int32", sym "x", sym ";"] =
      .err "not found comment, text=int32" := by
  have h := claim_c1 2 [sym "int32", sym "x", sym ";"] [] [] [] [] []
    (by decide) (by decide)
  exact ⟨by decide, by decide, h.1⟩

/-- C2 (counterexample): on the field `int32 x = 1` whose `;` is missing
before end-of-input, the field production never returns, for any fuel:
the Go loop keeps retrying at the EOF cursor position forever instead of
returning an error. -/
theorem claim_c2_counterexample :
    ParseFieldDiverges [sym "int32", sym "x", sym "=", sym "1"] := by
  intro fuel
  have h := parseFieldLoop_noSemi fuel [sym "int32", sym "x", sym "=", sym "1"]
    none "" (by decide)
  simp only [parseField, h]

/-- C2 (amended): parsing does not always terminate.  If no `;` remains
in the input, the field production's loop exhausts every fuel bound (the
Go loop runs forever at EOF); when a `;` does occur among the remaining
tokens, the scan-to-terminator loop reaches it and terminates. -/
theorem claim_c2 :
    ∀ (ts : List Tok) (fuel : Nat),
      (NoSemi ts → ∀ (ty : Option Ty) (nm : String),
        parseFieldLoop fuel ty nm ts = .oof) ∧
      ((∃ t ∈ ts, t.text = ";") → ts.length < fuel →
        (skipPastSemi fuel ts).isSome = true) := by
  intro ts fuel
  exact ⟨fun h ty nm => parseFieldLoop_noSemi fuel ts ty nm h,
    fun hex hlen => skipPastSemi_isSome ts fuel hex hlen⟩

/-- C2 witness: the amended theorem applied at concrete inputs, both for
the divergent scan (no `;` anywhere) and the terminating scan. -/
theorem claim_c2_witness :
    (NoSemi [sym "int32", sym "x"] ∧
      parseFieldLoop 7 none "" [sym "int32", sym "x"] = .oof) ∧
    ((∃ t ∈ [sym "=", sym "1", sym ";"], t.text = ";") ∧
      (skipPastSemi 4 [sym "=", sym "1", sym ";"]).isSome = true) := by
  refine ⟨⟨by decide, (claim_c2 [sym "int32", sym "x"] 7).1 (by decide) none ""⟩,
    ⟨by decide, (claim_c2 [sym "=", sym "1", sym ";"] 4).2 (by decide) (by decide)⟩⟩

/-- C9: the comment collector returns exactly the maximal run of
consecutive comment tokens at the cursor, in source order (the texts of
`takeWhile is-comment`), leaves the cursor on the first non-comment
token (`dropWhile is-comment`, whose head is not a comment), and returns
the empty run unchanged-cursor when the current token is no comment.  It
is a pure function of the remaining-token cursor by construction. -/
theorem claim_c9 :
    ∀ (ts : List Tok),
      (parseComments ts).1 = (ts.takeWhile (fun t => t.kind == .comment)).map Tok.text ∧
      (parseComments ts).2 = ts.dropWhile (fun t => t.kind == .comment) ∧
      (curTok (parseComments ts).2).kind ≠ .comment ∧
      ((curTok ts).kind ≠ .comment → parseComments ts = ([], ts)) := by
  intro ts
  induction ts with
  | nil => exact ⟨rfl, rfl, by decide, fun _ => rfl⟩
  | cons a rest ih =>
    by_cases h : a.kind = .comment
    · refine ⟨?_, ?_, ?_, ?_⟩
      · simp [parseComments, List.takeWhile_cons, h, ih.1]
      · simp [parseComments, List.dropWhile_cons, h, ih.2.1]
      · simpa [parseComments, h] using ih.2.2.1
      · intro hcur
        exact absurd h (by simpa [curTok_cons] using hcur)
    · refine ⟨?_, ?_, ?_, fun _ => ?_⟩
      · simp [parseComments, List.takeWhile_cons, h]
      · simp [parseComments, List.dropWhile_cons, h]
      · simp [parseComments, h, curTok_cons]
      · simp [parseComments, h]

/-- C9 witness: the collector applied to a concrete cursor: two leading
comments are collected in order and the cursor stops on `bytes`; a
cursor already on a non-comment token yields the empty run. -/
theorem claim_c9_witness :
    parseComments [cmt "// binary is an image binary. Required.", cmt "// hogehoge",
        sym "bytes", sym "binary"] =
      (["// binary is an image binary. Required.", "// hogehoge"],
        [sym "bytes", sym "binary"]) ∧
    parseComments [sym "bytes", sym "binary"] = ([], [sym "bytes", sym "binary"]) := by
  have h1 := claim_c9 [cmt "// binary is an image binary. Required.", cmt "// hogehoge",
    sym "bytes", sym "binary"]
  have h2 := (claim_c9 [sym "bytes", sym "binary"]).2.2.2 (by decide)
  exact ⟨by decide, h2⟩

end Protoparser

namespace Protoparser

/-- C5: as soon as a dispatched construct production returns an error,
the file-level loop returns that very error (and hence no AST value);
in particular nothing after the failed construct is parsed. -/
theorem claim_c5 :
    ∀ (fuel : Nat) (pkg : String) (svc : Service) (msgs : List Message)
      (ts : List Tok) (cs : List String) (r : List Tok) (e : String),
      (curTok ts).kind ≠ .eof → parseComments ts = (cs, r) →
      (((curTok r).text = "package" → parsePackage r = .err e →
          parseLoop (fuel + 1) pkg svc msgs ts = .err e) ∧
        ((curTok r).text = "service" → parseService fuel r = .err e →
          parseLoop (fuel + 1) pkg svc msgs ts = .err e) ∧
        ((curTok r).text = "message" → parseMessage fuel r = .err e →
          parseLoop (fuel + 1) pkg svc msgs ts = .err e)) := by
  intro fuel pkg svc msgs ts cs r e hne hcr
  refine ⟨fun ht herr => ?_, fun ht herr => ?_, fun ht herr => ?_⟩ <;>
    simp [parseLoop, if_neg hne, hcr, ht, herr]

/-- C5 witness: parsing `message M { x }` fails with the error raised
inside the message production, propagated unchanged by the file loop. -/
theorem claim_c5_witness :
    (curTok badMsgToks).kind ≠ TKind.eof ∧
    parseComments badMsgToks = ([], badMsgToks) ∧
    (curTok badMsgToks).text = "message" ∧
    parseMessage 10 badMsgToks = .err "not found comment, text=x" ∧
    parseLoop 11 "" ⟨[], "", []⟩ [] badMsgToks = .err "not found comment, text=x" := by
  refine ⟨by decide, rfl, rfl, rfl, ?_⟩
  exact (claim_c5 10 "" ⟨[], "", []⟩ [] badMsgToks [] badMsgToks
    "not found comment, text=x" (by decide) rfl).2.2 rfl rfl

/-- C6: a token at file scope that is none of `package`, `service`,
`message` makes the file-level loop advance one token and continue; no
error is signalled at this level. -/
theorem claim_c6 :
    ∀ (fuel : Nat) (pkg : String) (svc : Service) (msgs : List Message)
      (ts : List Tok) (cs : List String) (r : List Tok),
      (curTok ts).kind ≠ .eof → parseComments ts = (cs, r) →
      (curTok r).text ≠ "package" → (curTok r).text ≠ "service" →
      (curTok r).text ≠ "message" →
      parseLoop (fuel + 1) pkg svc msgs ts = parseLoop fuel pkg svc msgs r.tail := by
  intro fuel pkg svc msgs ts cs r hne hcr h1 h2 h3
  simp [parseLoop, if_neg hne, hcr, h1, h2, h3]

/-- C6 witness: an unrecognised `import` statement at file scope is
skipped token by token and the file still parses successfully. -/
theorem claim_c6_witness :
    (curTok [sym "import", sym "a", sym ";"]).kind ≠ TKind.eof ∧
    parseComments [sym "import", sym "a", sym ";"] = ([], [sym "import", sym "a", sym ";"]) ∧
    (curTok [sym "import", sym "a", sym ";"]).text ≠ "package" ∧
    parseLoop 4 "" ⟨[], "", []⟩ [] [sym "import", sym "a", sym ";"] =
      parseLoop 3 "" ⟨[], "", []⟩ [] [sym "a", sym ";"] ∧
    Parse [sym "import", sym "a", sym ";"] = .ok ⟨"", ⟨[], "", []⟩, []⟩ [] := by
  refine ⟨by decide, rfl, by decide, ?_, rfl⟩
  exact claim_c6 3 "" ⟨[], "", []⟩ [] [sym "import", sym "a", sym ";"] []
    [sym "import", sym "a", sym ";"] (by decide) rfl (by decide) (by decide) (by decide)

/-- C7 (counterexample): a file declaring services `A` (with one RPC)
and then `B` parses to a root whose single service slot holds only `B`;
service `A` is lost, and the root has no imports or options at all, so
the root does not record all services as an ordered list. -/
theorem claim_c7_counterexample :
    Parse twoServiceToks = .ok ⟨"", ⟨["//s2"], "B", []⟩, []⟩ [] := rfl

/-- C7 (amended): the root records the package name and the messages as
an ordered list (each parsed message is appended at the end), but only a
single service slot: a successfully parsed `service` overwrites whatever
service was recorded before; imports and top-level options do not exist
in the root type. -/
theorem claim_c7 :
    ∀ (fuel : Nat) (pkg : String) (svc : Service) (msgs : List Message)
      (ts : List Tok) (cs : List String) (r r2 : List Tok),
      (curTok ts).kind ≠ .eof → parseComments ts = (cs, r) →
      ((∀ s : Service, (curTok r).text = "service" → parseService fuel r = .ok s r2 →
          parseLoop (fuel + 1) pkg svc msgs ts =
            parseLoop fuel pkg { s with comments := s.comments ++ cs } msgs r2) ∧
        (∀ m : Message, (curTok r).text = "message" → parseMessage fuel r = .ok m r2 →
          parseLoop (fuel + 1) pkg svc msgs ts =
            parseLoop fuel pkg svc (msgs ++ [{ m with comments := m.comments ++ cs }]) r2)) := by
  intro fuel pkg svc msgs ts cs r r2 hne hcr
  refine ⟨fun s ht hok => ?_, fun m ht hok => ?_⟩ <;>
    simp [parseLoop, if_neg hne, hcr, ht, hok]

/-- C7 witness: the amended theorem applied at the second `service` of
the two-service file, showing the overwrite of service `A` by `B`. -/
theorem claim_c7_witness :
    (curTok (twoServiceToks.drop 17)).kind ≠ TKind.eof ∧
    parseComments (twoServiceToks.drop 17) = (["//s2"], twoServiceToks.drop 18) ∧
    (curTok (twoServiceToks.drop 18)).text = "service" ∧
    parseService 50 (twoServiceToks.drop 18) = .ok ⟨[], "B", []⟩ [] ∧
    parseLoop 51 "" ⟨["//s1"], "A", [⟨["//r"], "Ping", some ⟨"T", false⟩, some ⟨"U", false⟩⟩]⟩
        [] (twoServiceToks.drop 17) =
      parseLoop 50 "" ⟨["//s2"], "B", []⟩ [] [] := by
  refine ⟨by decide, rfl, rfl, rfl, ?_⟩
  exact (claim_c7 50 "" ⟨["//s1"], "A", [⟨["//r"], "Ping", some ⟨"T", false⟩, some ⟨"U", false⟩⟩]⟩
    [] (twoServiceToks.drop 17) ["//s2"] (twoServiceToks.drop 18) [] (by decide) rfl).1
    ⟨[], "B", []⟩ rfl rfl

/-- C10: the oneof production reuses the message-body production and
keeps only its fields: nested messages, enums and oneofs parsed inside
the oneof body are silently discarded, with no error. -/
theorem claim_c10 :
    ∀ (fuel : Nat) (ts : List Tok) (fs : List Field) (ms : List Message)
      (es : List Enum) (os : List Oneof) (r : List Tok),
      (curTok ts).text = "oneof" →
      parseMessageContent fuel [] [] [] [] ts.tail.tail.tail = .ok (fs, ms, es, os) r →
      parseOneof fuel ts = .ok ⟨[], (curTok ts.tail).text, fs⟩ r.tail := by
  intro fuel ts fs ms es os r ht hok
  simp [parseOneof, ht, hok]

/-- C10 witness: the body production returns the nested message `N`
alongside the field `x`, but the oneof node keeps only the field. -/
theorem claim_c10_witness :
    (curTok oneofNestedToks).text = "oneof" ∧
    parseMessageContent 100 [] [] [] [] (oneofNestedToks.tail.tail.tail) =
      .ok ([⟨["//d"], some ⟨"int32", false⟩, "x"⟩],
        [⟨["//c"], "N", [], [], [], []⟩], [], []) [sym "\x7d"] ∧
    parseOneof 100 oneofNestedToks =
      .ok ⟨[], "o", [⟨["//d"], some ⟨"int32", false⟩, "x"⟩]⟩ [] := by
  refine ⟨rfl, rfl, ?_⟩
  exact claim_c10 100 oneofNestedToks [⟨["//d"], some ⟨"int32", false⟩, "x"⟩]
    [⟨["//c"], "N", [], [], [], []⟩] [] [] [sym "\x7d"] rfl rfl

end Protoparser

/-- C4: parsing `message M { map<int32, string> my_map = 4; }` at the
message entry point yields a Message named `M` whose body is exactly one
MapField with KeyType `int32`, value type `string`, MapName `my_map` and
FieldNumber `4` (stamped at the `map` token, byte offset 13 of column
13, line 1; the message itself at offset 1, line 1, column 1), with the
whole input consumed. -/
theorem claim_c4 :
    SpecParser.ParseMessageSpec "message M { map<int32, string> my_map = 4; }" =
      .ok (.mk "M" [.mapFld ⟨"int32", "string", "my_map", "4", [], ⟨13, 1, 13⟩⟩] [] ⟨1, 1, 1⟩)
        [] := rfl

/-- C8: on empty input the single-construct message entry point of the
shown source errors (for every fuel, since the keyword check precedes
any loop), and the spec-modelled single-construct option entry point
errors as well; neither returns a node. -/
theorem claim_c8 :
    (∀ fuel : Nat, Protoparser.parseMessage fuel [] =
      .err "not found message, text=") ∧
    SpecParser.ParseOptionSpec "" = .err "unexpected end of input: expected option" :=
  ⟨fun _ => rfl, rfl⟩

namespace SpecParser

theorem SigP.ofSubset {P : SPos → Prop} {ts ts' : List STok}
    (hsub : ts' ⊆ ts) (h : SigP P ts) : SigP P ts' :=
  fun tk htk => h tk (hsub htk)

theorem elemsAllP_iff {P : SPos → Prop} :
    ∀ {l : List SBodyElem}, elemsAllP P l ↔ ∀ e ∈ l, elemAllP P e := by
  intro l
  induction l with
  | nil => simp [elemsAllP]
  | cons e rest ih => simp [elemsAllP, ih]

theorem parseCommentsS_sub : ∀ ts : List STok, (parseCommentsS ts).2 ⊆ ts := by
  intro ts
  induction ts with
  | nil => simp [parseCommentsS]
  | cons a rest ih =>
    by_cases h : a.kind = .comment
    · simp only [parseCommentsS, if_pos h]
      exact ih.trans (List.subset_cons_self a rest)
    · simp [parseCommentsS, h]

theorem parseCommentsS_head :
    ∀ (ts : List STok) (a : STok) (rest : List STok),
      (parseCommentsS ts).2 = a :: rest → a.kind ≠ .comment := by
  intro ts
  induction ts with
  | nil => intro a rest h; cases h
  | cons b tl ih =>
    intro a rest h
    by_cases hb : b.kind = .comment
    · exact ih a rest (by simpa [parseCommentsS, hb] using h)
    · simp only [parseCommentsS, if_neg hb] at h
      cases h
      exact hb

theorem parseDotIdentsS_sub :
    ∀ (ts : List STok) (acc : String), (parseDotIdentsS acc ts).2 ⊆ ts
  | [], acc => by simp [parseDotIdentsS]
  | a :: rest, acc => by
    by_cases h : a.text = "."
    · cases rest with
      | nil => simp [parseDotIdentsS, h]
      | cons b rest2 =>
        have ih := parseDotIdentsS_sub rest2 (acc ++ "." ++ b.text)
        simp only [parseDotIdentsS, if_pos h]
        exact ih.trans ((List.subset_cons_self b rest2).trans
          (List.subset_cons_self a (b :: rest2)))
    · cases rest with
      | nil => simp [parseDotIdentsS, h]
      | cons b rest2 => simp [parseDotIdentsS, h]

theorem collectParenS_sub :
    ∀ (ts : List STok) (acc nm : String) (r : List STok),
      collectParenS acc ts = .ok nm r → r ⊆ ts := by
  intro ts
  induction ts with
  | nil => intro acc nm r h; cases h
  | cons a rest ih =>
    intro acc nm r h
    by_cases ha : a.text = ")"
    · simp only [collectParenS, if_pos ha] at h
      cases h
      exact List.subset_cons_self a rest
    · simp only [collectParenS, if_neg ha] at h
      exact (ih _ nm r h).trans (List.subset_cons_self a rest)

theorem parseOptionNameS_sub :
    ∀ {ts : List STok} {nm : String} {r : List STok},
      parseOptionNameS ts = .ok nm r → r ⊆ ts := by
  intro ts nm r h
  cases ts with
  | nil => cases h
  | cons a rest =>
    by_cases h1 : a.text = "("
    · simp only [parseOptionNameS, if_pos h1] at h
      cases hc : collectParenS "(" rest with
      | ok nm1 r1 =>
        simp only [hc] at h
        cases h
        exact (parseDotIdentsS_sub r1 nm1).trans
          ((collectParenS_sub rest "(" nm1 r1 hc).trans (List.subset_cons_self a rest))
      | err e => simp only [hc] at h; cases h
      | oof => simp only [hc] at h; cases h
    · by_cases h2 : a.kind = .ident
      · simp only [parseOptionNameS, if_neg h1, if_pos h2] at h
        cases h
        exact (parseDotIdentsS_sub rest a.text).trans (List.subset_cons_self a rest)
      · simp [parseOptionNameS, if_neg h1, if_neg h2] at h

theorem parseOptionS_ok :
    ∀ {ts : List STok} {o : SOption} {r : List STok},
      parseOptionS ts = .ok o r →
      ∃ a rest, ts = a :: rest ∧ o.pos = a.pos ∧ r ⊆ rest := by
  intro ts o r h
  cases ts with
  | nil => cases h
  | cons a rest =>
    by_cases h1 : a.text = "option"
    · simp only [parseOptionS, if_pos h1] at h
      cases hn : parseOptionNameS rest with
      | err e => simp only [hn] at h; cases h
      | oof => simp only [hn] at h; cases h
      | ok nm r1 =>
        simp only [hn] at h
        cases r1 with
        | nil => cases h
        | cons b r2 =>
          by_cases h2 : b.text = "="
          · simp only [if_pos h2] at h
            cases r2 with
            | nil => cases h
            | cons c r3 =>
              cases r3 with
              | nil => cases h
              | cons d r4 =>
                by_cases h3 : d.text = ";"
                · simp only [if_pos h3] at h
                  injection h with h4 h5
                  subst h4 h5
                  refine ⟨a, rest, rfl, rfl, ?_⟩
                  have hsub := parseOptionNameS_sub hn
                  exact ((List.subset_cons_self d r4).trans
                    ((List.subset_cons_self c (d :: r4)).trans
                      ((List.subset_cons_self b (c :: d :: r4)).trans hsub)))
                · simp only [if_neg h3] at h; cases h
          · simp only [if_neg h2] at h; cases h
    · simp only [parseOptionS, if_neg h1] at h; cases h

theorem skipBracketsS_sub :
    ∀ (ts : List STok) (r : List STok), skipBracketsS ts = .ok () r → r ⊆ ts := by
  intro ts
  induction ts with
  | nil => intro r h; cases h
  | cons a rest ih =>
    intro r h
    by_cases ha : a.text = "]"
    · simp only [skipBracketsS, if_pos ha] at h
      injection h with h4 h5
      subst h5
      exact List.subset_cons_self a rest
    · simp only [skipBracketsS, if_neg ha] at h
      exact (ih r h).trans (List.subset_cons_self a rest)

theorem expectSemiS_sub :
    ∀ {ts : List STok} {r : List STok}, expectSemiS ts = .ok () r → r ⊆ ts := by
  intro ts r h
  cases ts with
  | nil => cases h
  | cons a rest =>
    by_cases ha : a.text = ";"
    · simp only [expectSemiS, if_pos ha] at h
      injection h with h4 h5
      subst h5
      exact List.subset_cons_self a rest
    · simp only [expectSemiS, if_neg ha] at h; cases h

theorem parseFieldTailS_sub :
    ∀ {ts : List STok} {nm num : String} {r : List STok},
      parseFieldTailS ts = .ok (nm, num) r → r ⊆ ts := by
  intro ts nm num r h
  cases ts with
  | nil => cases h
  | cons n r1 =>
    cases r1 with
    | nil => cases h
    | cons eq r2 =>
      by_cases h1 : eq.text = "="
      · simp only [parseFieldTailS, if_pos h1] at h
        cases r2 with
        | nil => cases h
        | cons num2 r3 =>
          cases r3 with
          | nil => cases h
          | cons br r4 =>
            by_cases h2 : br.text = "["
            · simp only [if_pos h2] at h
              cases hb : skipBracketsS r4 with
              | err e => simp only [hb] at h; cases h
              | oof => simp only [hb] at h; cases h
              | ok u r5 =>
                cases u
                simp only [hb] at h
                cases he : expectSemiS r5 with
                | err e => simp only [he] at h; cases h
                | oof => simp only [he] at h; cases h
                | ok u2 r6 =>
                  cases u2
                  simp only [he] at h
                  injection h with h4 h5
                  subst h5
                  have hsub := (expectSemiS_sub he).trans (skipBracketsS_sub r4 r5 hb)
                  exact hsub.trans ((List.subset_cons_self br r4).trans
                    ((List.subset_cons_self num2 (br :: r4)).trans
                      ((List.subset_cons_self eq (num2 :: br :: r4)).trans
                        (List.subset_cons_self n (eq :: num2 :: br :: r4)))))
            · simp only [if_neg h2] at h
              cases he : expectSemiS (br :: r4) with
              | err e => simp only [he] at h; cases h
              | oof => simp only [he] at h; cases h
              | ok u2 r6 =>
                cases u2
                simp only [he] at h
                injection h with h4 h5
                subst h5
                exact (expectSemiS_sub he).trans
                  ((List.subset_cons_self num2 (br :: r4)).trans
                    ((List.subset_cons_self eq (num2 :: br :: r4)).trans
                      (List.subset_cons_self n (eq :: num2 :: br :: r4))))
      · simp only [parseFieldTailS, if_neg h1] at h; cases h

theorem parseTypedTailS_ok :
    ∀ {isRep : Bool} {pos : SPos} {tyTok : STok} {ts : List STok}
      {f : SField} {r2 : List STok},
      parseTypedTailS isRep pos tyTok ts = .ok f r2 →
      f.pos = pos ∧ r2 ⊆ ts := by
  intro isRep pos tyTok ts f r2 h
  by_cases h1 : tyTok.kind = .ident
  · simp only [parseTypedTailS, if_pos h1] at h
    cases hf : parseFieldTailS (parseDotIdentsS tyTok.text ts).2 with
    | err e => simp only [hf] at h; cases h
    | oof => simp only [hf] at h; cases h
    | ok p r3 =>
      rcases p with ⟨nm, num⟩
      simp only [hf] at h
      injection h with h4 h5
      subst h4 h5
      exact ⟨rfl, (parseFieldTailS_sub hf).trans (parseDotIdentsS_sub ts tyTok.text)⟩
  · simp only [parseTypedTailS, if_neg h1] at h; cases h

theorem parseFieldS_ok :
    ∀ {ts : List STok} {f : SField} {r : List STok},
      parseFieldS ts = .ok f r →
      ∃ a rest, ts = a :: rest ∧ f.pos = a.pos ∧ r ⊆ ts := by
  intro ts f r h
  cases ts with
  | nil => cases h
  | cons a rest =>
    by_cases h1 : a.text = "repeated"
    · simp only [parseFieldS, if_pos h1] at h
      cases rest with
      | nil => cases h
      | cons b r1 =>
        obtain ⟨hpos, hsub⟩ := parseTypedTailS_ok h
        exact ⟨a, b :: r1, rfl, hpos,
          hsub.trans ((List.subset_cons_self b r1).trans
            (List.subset_cons_self a (b :: r1)))⟩
    · simp only [parseFieldS, if_neg h1] at h
      obtain ⟨hpos, hsub⟩ := parseTypedTailS_ok h
      exact ⟨a, rest, rfl, hpos, hsub.trans (List.subset_cons_self a rest)⟩

theorem parseMapFieldS_ok :
    ∀ {ts : List STok} {mf : SMapField} {r : List STok},
      parseMapFieldS ts = .ok mf r →
      ∃ a rest, ts = a :: rest ∧ mf.pos = a.pos ∧ r ⊆ ts := by
  intro ts mf r h
  match ts with
  | [] => cases h
  | [a] => cases h
  | [a, b] => cases h
  | [a, b, c] => cases h
  | [a, b, c, d] => cases h
  | [a, b, c, d, e] => cases h
  | a :: lt :: k :: comma :: v :: gt :: rest =>
    by_cases h1 : a.text = "map" ∧ lt.text = "<" ∧ comma.text = "," ∧ gt.text = ">"
    · simp only [parseMapFieldS, if_pos h1] at h
      cases hf : parseFieldTailS rest with
      | err e2 => simp only [hf] at h; cases h
      | oof => simp only [hf] at h; cases h
      | ok p r2 =>
        rcases p with ⟨nm, num⟩
        simp only [hf] at h
        injection h with h4 h5
        subst h4 h5
        refine ⟨a, lt :: k :: comma :: v :: gt :: rest, rfl, rfl, ?_⟩
        intro x hx
        have := parseFieldTailS_sub hf hx
        simp [List.mem_cons]
        tauto
    · simp only [parseMapFieldS, if_neg h1] at h; cases h

theorem parseEnumFieldS_ok :
    ∀ {ts : List STok} {f : SEnumField} {r : List STok},
      parseEnumFieldS ts = .ok f r →
      ∃ a rest, ts = a :: rest ∧ f.pos = a.pos ∧ r ⊆ ts := by
  intro ts f r h
  cases ts with
  | nil => cases h
  | cons a rest =>
    simp only [parseEnumFieldS] at h
    cases hf : parseFieldTailS (a :: rest) with
    | err e => simp only [hf] at h; cases h
    | oof => simp only [hf] at h; cases h
    | ok p r2 =>
      rcases p with ⟨nm, num⟩
      simp only [hf] at h
      injection h with h4 h5
      subst h4 h5
      exact ⟨a, rest, rfl, rfl, parseFieldTailS_sub hf⟩

theorem parseOneofFieldS_ok :
    ∀ {ts : List STok} {f : SOneofField} {r : List STok},
      parseOneofFieldS ts = .ok f r →
      ∃ a rest, ts = a :: rest ∧ f.pos = a.pos ∧ r ⊆ ts := by
  intro ts f r h
  cases ts with
  | nil => cases h
  | cons a rest =>
    by_cases h1 : a.kind = .ident
    · simp only [parseOneofFieldS, if_pos h1] at h
      cases hf : parseFieldTailS (parseDotIdentsS a.text rest).2 with
      | err e => simp only [hf] at h; cases h
      | oof => simp only [hf] at h; cases h
      | ok p r2 =>
        rcases p with ⟨nm, num⟩
        simp only [hf] at h
        injection h with h4 h5
        subst h4 h5
        exact ⟨a, rest, rfl, rfl,
          ((parseFieldTailS_sub hf).trans (parseDotIdentsS_sub rest a.text)).trans
            (List.subset_cons_self a rest)⟩
    · simp only [parseOneofFieldS, if_neg h1] at h; cases h

theorem collectReservedS_sub :
    ∀ (ts : List STok) (items : List String) (r : List STok),
      collectReservedS ts = .ok items r → r ⊆ ts := by
  intro ts
  induction ts with
  | nil => intro items r h; cases h
  | cons a rest ih =>
    intro items r h
    by_cases h1 : a.text = ";"
    · simp only [collectReservedS, if_pos h1] at h
      injection h with h4 h5
      subst h5
      exact List.subset_cons_self a rest
    · by_cases h2 : a.text = ","
      · simp only [collectReservedS, if_neg h1, if_pos h2] at h
        exact (ih items r h).trans (List.subset_cons_self a rest)
      · simp only [collectReservedS, if_neg h1, if_neg h2] at h
        cases hc : collectReservedS rest with
        | err e => simp only [hc] at h; cases h
        | oof => simp only [hc] at h; cases h
        | ok items2 r2 =>
          simp only [hc] at h
          injection h with h4 h5
          subst h5
          exact (ih items2 r2 hc).trans (List.subset_cons_self a rest)

theorem parseReservedS_ok :
    ∀ {ts : List STok} {v : SReserved} {r : List STok},
      parseReservedS ts = .ok v r →
      ∃ a rest, ts = a :: rest ∧ v.pos = a.pos ∧ r ⊆ ts := by
  intro ts v r h
  cases ts with
  | nil => cases h
  | cons a rest =>
    by_cases h1 : a.text = "reserved"
    · simp only [parseReservedS, if_pos h1] at h
      cases hc : collectReservedS rest with
      | err e => simp only [hc] at h; cases h
      | oof => simp only [hc] at h; cases h
      | ok items r2 =>
        simp only [hc] at h
        injection h with h4 h5
        subst h4 h5
        exact ⟨a, rest, rfl, rfl,
          (collectReservedS_sub rest items r2 hc).trans (List.subset_cons_self a rest)⟩
    · simp only [parseReservedS, if_neg h1] at h; cases h

theorem parseEnumBodyS_ok {P : SPos → Prop} :
    ∀ (fuel : Nat) (acc : List SEnumElem) (ts : List STok)
      (body : List SEnumElem) (r : List STok),
      parseEnumBodyS fuel acc ts = .ok body r →
      SigP P ts → (∀ el ∈ acc, enumElemP P el) →
      (∀ el ∈ body, enumElemP P el) ∧ r ⊆ ts := by
  intro fuel
  induction fuel with
  | zero => intro acc ts body r h _ _; cases h
  | succ n ih =>
    intro acc ts body r h hsig hacc
    simp only [parseEnumBodyS] at h
    cases hr0 : (parseCommentsS ts).2 with
    | nil => simp only [hr0] at h; cases h
    | cons a rest0 =>
      simp only [hr0, List.tail_cons] at h
      have hsub0 : a :: rest0 ⊆ ts := hr0 ▸ parseCommentsS_sub ts
      have hane : a.kind ≠ .comment := parseCommentsS_head ts a rest0 hr0
      have hPa : P a.pos := hsig a (hsub0 (List.mem_cons_self a rest0)) hane
      by_cases h1 : a.text = "\x7d"
      · simp only [if_pos h1] at h
        injection h with h4 h5
        subst h4 h5
        exact ⟨hacc, (List.subset_cons_self a rest0).trans hsub0⟩
      · by_cases h2 : a.text = "option"
        · simp only [if_neg h1, if_pos h2] at h
          cases ho : parseOptionS (a :: rest0) with
          | err e => simp only [ho] at h; cases h
          | oof => simp only [ho] at h; cases h
          | ok o r2 =>
            simp only [ho] at h
            obtain ⟨a1, rest1, heq, hpos, hsub2⟩ := parseOptionS_ok ho
            cases heq
            have hr2 : r2 ⊆ ts := (hsub2.trans (List.subset_cons_self a rest0)).trans hsub0
            have := ih _ r2 body r h (hsig.ofSubset hr2) ?_
            · exact ⟨this.1, this.2.trans hr2⟩
            · intro el hel
              rcases List.mem_append.mp hel with hl | hl
              · exact hacc el hl
              · rcases List.mem_singleton.mp hl with rfl
                simpa [enumElemP, hpos] using hPa
        · simp only [if_neg h1, if_neg h2] at h
          cases hf : parseEnumFieldS (a :: rest0) with
          | err e => simp only [hf] at h; cases h
          | oof => simp only [hf] at h; cases h
          | ok f r2 =>
            simp only [hf] at h
            obtain ⟨a1, rest1, heq, hpos, hsub2⟩ := parseEnumFieldS_ok hf
            cases heq
            have hr2 : r2 ⊆ ts := hsub2.trans hsub0
            have := ih _ r2 body r h (hsig.ofSubset hr2) ?_
            · exact ⟨this.1, this.2.trans hr2⟩
            · intro el hel
              rcases List.mem_append.mp hel with hl | hl
              · exact hacc el hl
              · rcases List.mem_singleton.mp hl with rfl
                simpa [enumElemP, hpos] using hPa

theorem parseOneofBodyS_ok {P : SPos → Prop} :
    ∀ (fuel : Nat) (acc : List SOneofField) (ts : List STok)
      (fields : List SOneofField) (r : List STok),
      parseOneofBodyS fuel acc ts = .ok fields r →
      SigP P ts → (∀ f ∈ acc, P f.pos) →
      (∀ f ∈ fields, P f.pos) ∧ r ⊆ ts := by
  intro fuel
  induction fuel with
  | zero => intro acc ts fields r h _ _; cases h
  | succ n ih =>
    intro acc ts fields r h hsig hacc
    simp only [parseOneofBodyS] at h
    cases hr0 : (parseCommentsS ts).2 with
    | nil => simp only [hr0] at h; cases h
    | cons a rest0 =>
      simp only [hr0, List.tail_cons] at h
      have hsub0 : a :: rest0 ⊆ ts := hr0 ▸ parseCommentsS_sub ts
      have hane : a.kind ≠ .comment := parseCommentsS_head ts a rest0 hr0
      have hPa : P a.pos := hsig a (hsub0 (List.mem_cons_self a rest0)) hane
      by_cases h1 : a.text = "\x7d"
      · simp only [if_pos h1] at h
        injection h with h4 h5
        subst h4 h5
        exact ⟨hacc, (List.subset_cons_self a rest0).trans hsub0⟩
      · simp only [if_neg h1] at h
        cases hf : parseOneofFieldS (a :: rest0) with
        | err e => simp only [hf] at h; cases h
        | oof => simp only [hf] at h; cases h
        | ok f r2 =>
          simp only [hf] at h
          obtain ⟨a1, rest1, heq, hpos, hsub2⟩ := parseOneofFieldS_ok hf
          cases heq
          have hr2 : r2 ⊆ ts := hsub2.trans hsub0
          have := ih _ r2 fields r h (hsig.ofSubset hr2) ?_
          · exact ⟨this.1, this.2.trans hr2⟩
          · intro f2 hf2
            rcases List.mem_append.mp hf2 with hl | hl
            · exact hacc f2 hl
            · rcases List.mem_singleton.mp hl with rfl
              simpa [hpos] using hPa

theorem parseEnumS_ok {P : SPos → Prop} :
    ∀ {fuel : Nat} {ts : List STok} {e : SEnum} {r : List STok},
      parseEnumS fuel ts = .ok e r → SigP P ts →
      (∃ a rest, ts = a :: rest ∧ e.pos = a.pos) ∧
      (∀ el ∈ e.body, enumElemP P el) ∧ r ⊆ ts := by
  intro fuel ts e r h hsig
  cases ts with
  | nil => cases h
  | cons a rest =>
    by_cases h1 : a.text = "enum"
    · simp only [parseEnumS, if_pos h1] at h
      cases rest with
      | nil => cases h
      | cons nm rest2 =>
        cases rest2 with
        | nil => cases h
        | cons lb r0 =>
          by_cases h2 : lb.text = "\x7b"
          · simp only [if_pos h2] at h
            cases hb : parseEnumBodyS fuel [] r0 with
            | err e2 => simp only [hb] at h; cases h
            | oof => simp only [hb] at h; cases h
            | ok body r2 =>
              simp only [hb] at h
              injection h with h4 h5
              subst h4 h5
              have hr0 : r0 ⊆ a :: nm :: lb :: r0 := by
                intro x hx
                simp [List.mem_cons, hx]
              obtain ⟨hall, hsub⟩ :=
                parseEnumBodyS_ok fuel [] r0 body r2 hb (hsig.ofSubset hr0) (by simp)
              exact ⟨⟨a, nm :: lb :: r0, rfl, rfl⟩, hall, hsub.trans hr0⟩
          · simp only [if_neg h2] at h; cases h
    · simp only [parseEnumS, if_neg h1] at h; cases h

theorem parseOneofS_ok {P : SPos → Prop} :
    ∀ {fuel : Nat} {ts : List STok} {o : SOneof} {r : List STok},
      parseOneofS fuel ts = .ok o r → SigP P ts →
      (∃ a rest, ts = a :: rest ∧ o.pos = a.pos) ∧
      (∀ f ∈ o.fields, P f.pos) ∧ r ⊆ ts := by
  intro fuel ts o r h hsig
  cases ts with
  | nil => cases h
  | cons a rest =>
    by_cases h1 : a.text = "oneof"
    · simp only [parseOneofS, if_pos h1] at h
      cases rest with
      | nil => cases h
      | cons nm rest2 =>
        cases rest2 with
        | nil => cases h
        | cons lb r0 =>
          by_cases h2 : lb.text = "\x7b"
          · simp only [if_pos h2] at h
            cases hb : parseOneofBodyS fuel [] r0 with
            | err e2 => simp only [hb] at h; cases h
            | oof => simp only [hb] at h; cases h
            | ok fs r2 =>
              simp only [hb] at h
              injection h with h4 h5
              subst h4 h5
              have hr0 : r0 ⊆ a :: nm :: lb :: r0 := by
                intro x hx
                simp [List.mem_cons, hx]
              obtain ⟨hall, hsub⟩ :=
                parseOneofBodyS_ok fuel [] r0 fs r2 hb (hsig.ofSubset hr0) (by simp)
              exact ⟨⟨a, nm :: lb :: r0, rfl, rfl⟩, hall, hsub.trans hr0⟩
          · simp only [if_neg h2] at h; cases h
    · simp only [parseOneofS, if_neg h1] at h; cases h

theorem parseBodyS_ok {P : SPos → Prop} :
    ∀ (fuel : Nat) (acc : List SBodyElem) (ts : List STok)
      (body : List SBodyElem) (r : List STok),
      parseBodyS fuel acc ts = .ok body r →
      SigP P ts → (∀ e ∈ acc, elemAllP P e) →
      (∀ e ∈ body, elemAllP P e) ∧ r ⊆ ts := by
  intro fuel
  induction fuel with
  | zero => intro acc ts body r h _ _; cases h
  | succ n ih =>
    intro acc ts body r h hsig hacc
    simp only [parseBodyS] at h
    cases hr0 : (parseCommentsS ts).2 with
    | nil => simp only [hr0] at h; cases h
    | cons a rest0 =>
      simp only [hr0] at h
      have hsub0 : a :: rest0 ⊆ ts := hr0 ▸ parseCommentsS_sub ts
      have hane := parseCommentsS_head ts a rest0 hr0
      have hPa : P a.pos := hsig a (hsub0 (List.mem_cons_self a rest0)) hane
      by_cases h1 : a.text = "\x7d"
      · simp only [if_pos h1] at h
        injection h with h4 h5
        subst h4 h5
        exact ⟨hacc, (List.subset_cons_self a rest0).trans hsub0⟩
      · by_cases h2 : a.text = "option"
        · simp only [if_neg h1, if_pos h2] at h
          cases ho : parseOptionS (a :: rest0) with
          | err e => simp only [ho] at h; cases h
          | oof => simp only [ho] at h; cases h
          | ok o r2 =>
            simp only [ho] at h
            obtain ⟨a1, rest1, heq, hpos, hsub2⟩ := parseOptionS_ok ho
            cases heq
            have hr2 : r2 ⊆ ts := (hsub2.trans (List.subset_cons_self a rest0)).trans hsub0
            have hres := ih _ r2 body r h (hsig.ofSubset hr2) ?_
            · exact ⟨hres.1, hres.2.trans hr2⟩
            · intro e2 he2
              rcases List.mem_append.mp he2 with hl | hl
              · exact hacc e2 hl
              · rcases List.mem_singleton.mp hl with rfl
                simpa [elemAllP, hpos] using hPa
        · by_cases h3 : a.text = "message"
          · simp only [if_neg h1, if_neg h2, if_pos h3] at h
            cases rest0 with
            | nil => cases h
            | cons nm rest1 =>
              cases rest1 with
              | nil => cases h
              | cons lb r2 =>
                by_cases h4 : lb.text = "\x7b"
                · simp only [if_pos h4] at h
                  cases hb : parseBodyS n [] r2 with
                  | err e2 => simp only [hb] at h; cases h
                  | oof => simp only [hb] at h; cases h
                  | ok body0 r3 =>
                    simp only [hb] at h
                    have hr2sub : r2 ⊆ ts := fun x hx =>
                      hsub0 (by simp [List.mem_cons, hx])
                    obtain ⟨hall0, hsub3⟩ :=
                      ih [] r2 body0 r3 hb (hsig.ofSubset hr2sub) (by simp)
                    have hr3 : r3 ⊆ ts := hsub3.trans hr2sub
                    have hres := ih _ r3 body r h (hsig.ofSubset hr3) ?_
                    · exact ⟨hres.1, hres.2.trans hr3⟩
                    · intro e2 he2
                      rcases List.mem_append.mp he2 with hl | hl
                      · exact hacc e2 hl
                      · rcases List.mem_singleton.mp hl with rfl
                        refine (by simpa [elemAllP, msgAllP] using
                          ⟨hPa, elemsAllP_iff.mpr hall0⟩)
                · simp only [if_neg h4] at h; cases h
          · by_cases h5 : a.text = "enum"
            · simp only [if_neg h1, if_neg h2, if_neg h3, if_pos h5] at h
              cases he : parseEnumS n (a :: rest0) with
              | err e2 => simp only [he] at h; cases h
              | oof => simp only [he] at h; cases h
              | ok en r2 =>
                simp only [he] at h
                obtain ⟨hex, hall, hsub2⟩ :=
                  parseEnumS_ok (P := P) he (hsig.ofSubset hsub0)
                obtain ⟨a1, rest1, heq, hpos⟩ := hex
                cases heq
                have hr2 : r2 ⊆ ts := hsub2.trans hsub0
                have hres := ih _ r2 body r h (hsig.ofSubset hr2) ?_
                · exact ⟨hres.1, hres.2.trans hr2⟩
                · intro e2 he2
                  rcases List.mem_append.mp he2 with hl | hl
                  · exact hacc e2 hl
                  · rcases List.mem_singleton.mp hl with rfl
                    refine (by simpa [elemAllP, hpos] using ⟨hPa, hall⟩)
            · by_cases h6 : a.text = "oneof"
              · simp only [if_neg h1, if_neg h2, if_neg h3, if_neg h5, if_pos h6] at h
                cases hon : parseOneofS n (a :: rest0) with
                | err e2 => simp only [hon] at h; cases h
                | oof => simp only [hon] at h; cases h
                | ok on2 r2 =>
                  simp only [hon] at h
                  obtain ⟨hex, hall, hsub2⟩ :=
                    parseOneofS_ok (P := P) hon (hsig.ofSubset hsub0)
                  obtain ⟨a1, rest1, heq, hpos⟩ := hex
                  cases heq
                  have hr2 : r2 ⊆ ts := hsub2.trans hsub0
                  have hres := ih _ r2 body r h (hsig.ofSubset hr2) ?_
                  · exact ⟨hres.1, hres.2.trans hr2⟩
                  · intro e2 he2
                    rcases List.mem_append.mp he2 with hl | hl
                    · exact hacc e2 hl
                    · rcases List.mem_singleton.mp hl with rfl
                      refine (by simpa [elemAllP, hpos] using ⟨hPa, hall⟩)
              · by_cases h7 : a.text = "reserved"
                · simp only [if_neg h1, if_neg h2, if_neg h3, if_neg h5, if_neg h6,
                    if_pos h7] at h
                  cases hv : parseReservedS (a :: rest0) with
                  | err e2 => simp only [hv] at h; cases h
                  | oof => simp only [hv] at h; cases h
                  | ok v r2 =>
                    simp only [hv] at h
                    obtain ⟨a1, rest1, heq, hpos, hsub2⟩ := parseReservedS_ok hv
                    cases heq
                    have hr2 : r2 ⊆ ts := hsub2.trans hsub0
                    have hres := ih _ r2 body r h (hsig.ofSubset hr2) ?_
                    · exact ⟨hres.1, hres.2.trans hr2⟩
                    · intro e2 he2
                      rcases List.mem_append.mp he2 with hl | hl
                      · exact hacc e2 hl
                      · rcases List.mem_singleton.mp hl with rfl
                        simpa [elemAllP, hpos] using hPa
                · by_cases h8 : a.text = "map" ∧ rest0.head?.map STok.text = some "<"
                  · simp only [if_neg h1, if_neg h2, if_neg h3, if_neg h5, if_neg h6,
                      if_neg h7, if_pos h8] at h
                    cases hm : parseMapFieldS (a :: rest0) with
                    | err e2 => simp only [hm] at h; cases h
                    | oof => simp only [hm] at h; cases h
                    | ok mf r2 =>
                      simp only [hm] at h
                      obtain ⟨a1, rest1, heq, hpos, hsub2⟩ := parseMapFieldS_ok hm
                      cases heq
                      have hr2 : r2 ⊆ ts := hsub2.trans hsub0
                      have hres := ih _ r2 body r h (hsig.ofSubset hr2) ?_
                      · exact ⟨hres.1, hres.2.trans hr2⟩
                      · intro e2 he2
                        rcases List.mem_append.mp he2 with hl | hl
                        · exact hacc e2 hl
                        · rcases List.mem_singleton.mp hl with rfl
                          simpa [elemAllP, hpos] using hPa
                  · simp only [if_neg h1, if_neg h2, if_neg h3, if_neg h5, if_neg h6,
                      if_neg h7, if_neg h8] at h
                    cases hfd : parseFieldS (a :: rest0) with
                    | err e2 => simp only [hfd] at h; cases h
                    | oof => simp only [hfd] at h; cases h
                    | ok f r2 =>
                      simp only [hfd] at h
                      obtain ⟨a1, rest1, heq, hpos, hsub2⟩ := parseFieldS_ok hfd
                      cases heq
                      have hr2 : r2 ⊆ ts := hsub2.trans hsub0
                      have hres := ih _ r2 body r h (hsig.ofSubset hr2) ?_
                      · exact ⟨hres.1, hres.2.trans hr2⟩
                      · intro e2 he2
                        rcases List.mem_append.mp he2 with hl | hl
                        · exact hacc e2 hl
                        · rcases List.mem_singleton.mp hl with rfl
                          simpa [elemAllP, hpos] using hPa

theorem parseMessageS_ok {P : SPos → Prop} :
    ∀ {fuel : Nat} {ts : List STok} {m : SMessage} {r : List STok},
      parseMessageS fuel ts = .ok m r → SigP P ts →
      ∃ a rest, ts = a :: rest ∧ a.text = "message" ∧ m.pos = a.pos ∧
        (∀ e ∈ m.body, elemAllP P e) ∧ r ⊆ ts := by
  intro fuel ts m r h hsig
  cases ts with
  | nil => cases h
  | cons a rest =>
    by_cases h1 : a.text = "message"
    · simp only [parseMessageS, if_pos h1] at h
      cases rest with
      | nil => cases h
      | cons nm rest1 =>
        cases rest1 with
        | nil => cases h
        | cons lb r0 =>
          by_cases h2 : lb.text = "\x7b"
          · simp only [if_pos h2] at h
            cases hb : parseBodyS fuel [] r0 with
            | err e2 => simp only [hb] at h; cases h
            | oof => simp only [hb] at h; cases h
            | ok body r2 =>
              simp only [hb] at h
              injection h with h4 h5
              subst h4 h5
              have hr0 : r0 ⊆ a :: nm :: lb :: r0 := by
                intro x hx
                simp [List.mem_cons, hx]
              obtain ⟨hall, hsub⟩ :=
                parseBodyS_ok fuel [] r0 body r2 hb (hsig.ofSubset hr0) (by simp)
              exact ⟨a, nm :: lb :: r0, rfl, h1, rfl,
                by simpa [SMessage.body] using hall, hsub.trans hr0⟩
          · simp only [if_neg h2] at h; cases h
    · simp only [parseMessageS, if_neg h1] at h; cases h

theorem lexGo_ok :
    ∀ (fuel : Nat) (cs : List Char) (off ln col : Nat), 1 ≤ ln → 1 ≤ col →
      ∀ tk ∈ lexGo fuel cs off ln col,
        (1 ≤ tk.pos.line ∧ 1 ≤ tk.pos.column) ∧
        (tk.kind = .comment → ∃ u, tk.text = "//" ++ u) := by
  intro fuel
  induction fuel with
  | zero => intro cs off ln col _ _ tk htk; simp [lexGo] at htk
  | succ n ih =>
    intro cs off ln col hln hcol tk htk
    cases cs with
    | nil => simp [lexGo] at htk
    | cons c cs2 =>
      simp only [lexGo] at htk
      split_ifs at htk with h1 h2 h3 h4 h5 h6
      · exact ih cs2 (off + 1) (ln + 1) 1 (by omega) (by omega) tk htk
      · exact ih cs2 (off + 1) ln (col + 1) hln (by omega) tk htk
      · rcases List.mem_cons.mp htk with rfl | htl
        · exact ⟨⟨hln, hcol⟩, fun _ => ⟨_, rfl⟩⟩
        · exact ih _ _ ln _ hln (by omega) tk htl
      · rcases List.mem_cons.mp htk with rfl | htl
        · exact ⟨⟨hln, hcol⟩, fun hk => absurd hk (by simp)⟩
        · exact ih _ _ ln _ hln (by omega) tk htl
      · rcases List.mem_cons.mp htk with rfl | htl
        · exact ⟨⟨hln, hcol⟩, fun hk => absurd hk (by simp)⟩
        · exact ih _ _ ln _ hln (by omega) tk htl
      · rcases List.mem_cons.mp htk with rfl | htl
        · exact ⟨⟨hln, hcol⟩, fun hk => absurd hk (by simp)⟩
        · exact ih _ _ ln _ hln (by omega) tk htl
      · rcases List.mem_cons.mp htk with rfl | htl
        · exact ⟨⟨hln, hcol⟩, fun hk => absurd hk (by simp)⟩
        · exact ih _ _ ln _ hln (by omega) tk htl

theorem slashes_ne_message (u : String) : "//" ++ u ≠ "message" := by
  intro heq
  have h2 := congrArg String.data heq
  rw [String.data_append] at h2
  have e1 : "//".data = ['/', '/'] := rfl
  have e2 : "message".data = ['m', 'e', 's', 's', 'a', 'g', 'e'] := rfl
  rw [e1, e2] at h2
  simp at h2

theorem msgAllP_def (P : SPos → Prop) (m : SMessage) :
    msgAllP P m ↔ P m.pos ∧ ∀ e ∈ m.body, elemAllP P e := by
  cases m
  simp [msgAllP, SMessage.pos, SMessage.body, elemsAllP_iff]

theorem parseCommentsS_snd : ∀ ts : List STok, (parseCommentsS ts).2 = firstSig ts := by
  intro ts
  induction ts with
  | nil => simp [parseCommentsS, firstSig]
  | cons a rest ih =>
    by_cases h : a.kind = .comment
    · simp [parseCommentsS, firstSig, List.dropWhile_cons, h, ih, firstSig]
    · simp [parseCommentsS, firstSig, List.dropWhile_cons, h]

theorem parseBodyS_step :
    ∀ (fuel : Nat) (acc : List SBodyElem) (ts : List STok)
      (body : List SBodyElem) (r : List STok) (a : STok) (rest2 : List STok),
      parseBodyS (fuel + 1) acc ts = .ok body r →
      firstSig ts = a :: rest2 →
      a.kind ≠ SKind.comment ∧
      (a.text = "\x7d" ∨
        ∃ (e : SBodyElem) (ts2 : List STok),
          parseBodyS fuel (acc ++ [e]) ts2 = .ok body r ∧ elemPos e = a.pos) := by
  intro fuel acc ts body r a rest2 h hfs
  have hr0 : (parseCommentsS ts).2 = a :: rest2 := by
    rw [parseCommentsS_snd]
    exact hfs
  have hane := parseCommentsS_head ts a rest2 hr0
  refine ⟨hane, ?_⟩
  simp only [parseBodyS] at h
  simp only [hr0] at h
  by_cases h1 : a.text = "\x7d"
  · exact Or.inl h1
  · right
    simp only [if_neg h1] at h
    by_cases h2 : a.text = "option"
    · simp only [if_pos h2] at h
      cases ho : parseOptionS (a :: rest2) with
      | err e2 => simp only [ho] at h; cases h
      | oof => simp only [ho] at h; cases h
      | ok o r2 =>
        simp only [ho] at h
        obtain ⟨a1, rest1, heq, hpos, _⟩ := parseOptionS_ok ho
        cases heq
        exact ⟨_, r2, h, by simpa [elemPos] using hpos⟩
    · by_cases h3 : a.text = "message"
      · simp only [if_neg h2, if_pos h3] at h
        cases rest2 with
        | nil => cases h
        | cons nm rest1 =>
          cases rest1 with
          | nil => cases h
          | cons lb r2 =>
            by_cases h4 : lb.text = "\x7b"
            · simp only [if_pos h4] at h
              cases hb : parseBodyS fuel [] r2 with
              | err e2 => simp only [hb] at h; cases h
              | oof => simp only [hb] at h; cases h
              | ok body0 r3 =>
                simp only [hb] at h
                exact ⟨_, r3, h, rfl⟩
            · simp only [if_neg h4] at h; cases h
      · by_cases h5 : a.text = "enum"
        · simp only [if_neg h2, if_neg h3, if_pos h5] at h
          cases he : parseEnumS fuel (a :: rest2) with
          | err e2 => simp only [he] at h; cases h
          | oof => simp only [he] at h; cases h
          | ok en r2 =>
            simp only [he] at h
            obtain ⟨⟨a1, rest1, heq, hpos⟩, -, -⟩ :=
              parseEnumS_ok (P := fun _ => True) he (fun _ _ _ => trivial)
            cases heq
            exact ⟨_, r2, h, by simpa [elemPos] using hpos⟩
        · by_cases h6 : a.text = "oneof"
          · simp only [if_neg h2, if_neg h3, if_neg h5, if_pos h6] at h
            cases hon : parseOneofS fuel (a :: rest2) with
            | err e2 => simp only [hon] at h; cases h
            | oof => simp only [hon] at h; cases h
            | ok on2 r2 =>
              simp only [hon] at h
              obtain ⟨⟨a1, rest1, heq, hpos⟩, -, -⟩ :=
                parseOneofS_ok (P := fun _ => True) hon (fun _ _ _ => trivial)
              cases heq
              exact ⟨_, r2, h, by simpa [elemPos] using hpos⟩
          · by_cases h7 : a.text = "reserved"
            · simp only [if_neg h2, if_neg h3, if_neg h5, if_neg h6, if_pos h7] at h
              cases hv : parseReservedS (a :: rest2) with
              | err e2 => simp only [hv] at h; cases h
              | oof => simp only [hv] at h; cases h
              | ok v r2 =>
                simp only [hv] at h
                obtain ⟨a1, rest1, heq, hpos, _⟩ := parseReservedS_ok hv
                cases heq
                exact ⟨_, r2, h, by simpa [elemPos] using hpos⟩
            · by_cases h8 : a.text = "map" ∧ rest2.head?.map STok.text = some "<"
              · simp only [if_neg h2, if_neg h3, if_neg h5, if_neg h6, if_neg h7,
                  if_pos h8] at h
                cases hm : parseMapFieldS (a :: rest2) with
                | err e2 => simp only [hm] at h; cases h
                | oof => simp only [hm] at h; cases h
                | ok mf r2 =>
                  simp only [hm] at h
                  obtain ⟨a1, rest1, heq, hpos, _⟩ := parseMapFieldS_ok hm
                  cases heq
                  exact ⟨_, r2, h, by simpa [elemPos] using hpos⟩
              · simp only [if_neg h2, if_neg h3, if_neg h5, if_neg h6, if_neg h7,
                  if_neg h8] at h
                cases hfd : parseFieldS (a :: rest2) with
                | err e2 => simp only [hfd] at h; cases h
                | oof => simp only [hfd] at h; cases h
                | ok f r2 =>
                  simp only [hfd] at h
                  obtain ⟨a1, rest1, heq, hpos, _⟩ := parseFieldS_ok hfd
                  cases heq
                  exact ⟨_, r2, h, by simpa [elemPos] using hpos⟩

theorem parseEnumBodyS_step :
    ∀ (fuel : Nat) (acc : List SEnumElem) (ts : List STok)
      (body : List SEnumElem) (r : List STok) (a : STok) (rest2 : List STok),
      parseEnumBodyS (fuel + 1) acc ts = .ok body r →
      firstSig ts = a :: rest2 →
      a.kind ≠ SKind.comment ∧
      (a.text = "\x7d" ∨
        ∃ (e : SEnumElem) (ts2 : List STok),
          parseEnumBodyS fuel (acc ++ [e]) ts2 = .ok body r ∧ enumElemPos e = a.pos) := by
  intro fuel acc ts body r a rest2 h hfs
  have hr0 : (parseCommentsS ts).2 = a :: rest2 := by
    rw [parseCommentsS_snd]
    exact hfs
  have hane := parseCommentsS_head ts a rest2 hr0
  refine ⟨hane, ?_⟩
  simp only [parseEnumBodyS] at h
  simp only [hr0, List.tail_cons] at h
  by_cases h1 : a.text = "\x7d"
  · exact Or.inl h1
  · right
    simp only [if_neg h1] at h
    by_cases h2 : a.text = "option"
    · simp only [if_pos h2] at h
      cases ho : parseOptionS (a :: rest2) with
      | err e2 => simp only [ho] at h; cases h
      | oof => simp only [ho] at h; cases h
      | ok o r2 =>
        simp only [ho] at h
        obtain ⟨a1, rest1, heq, hpos, _⟩ := parseOptionS_ok ho
        cases heq
        exact ⟨_, r2, h, by simpa [enumElemPos] using hpos⟩
    · simp only [if_neg h2] at h
      cases hf : parseEnumFieldS (a :: rest2) with
      | err e2 => simp only [hf] at h; cases h
      | oof => simp only [hf] at h; cases h
      | ok f r2 =>
        simp only [hf] at h
        obtain ⟨a1, rest1, heq, hpos, _⟩ := parseEnumFieldS_ok hf
        cases heq
        exact ⟨_, r2, h, by simpa [enumElemPos] using hpos⟩

theorem parseOneofBodyS_step :
    ∀ (fuel : Nat) (acc : List SOneofField) (ts : List STok)
      (fields : List SOneofField) (r : List STok) (a : STok) (rest2 : List STok),
      parseOneofBodyS (fuel + 1) acc ts = .ok fields r →
      firstSig ts = a :: rest2 →
      a.kind ≠ SKind.comment ∧
      (a.text = "\x7d" ∨
        ∃ (f : SOneofField) (ts2 : List STok),
          parseOneofBodyS fuel (acc ++ [f]) ts2 = .ok fields r ∧ f.pos = a.pos) := by
  intro fuel acc ts fields r a rest2 h hfs
  have hr0 : (parseCommentsS ts).2 = a :: rest2 := by
    rw [parseCommentsS_snd]
    exact hfs
  have hane := parseCommentsS_head ts a rest2 hr0
  refine ⟨hane, ?_⟩
  simp only [parseOneofBodyS] at h
  simp only [hr0, List.tail_cons] at h
  by_cases h1 : a.text = "\x7d"
  · exact Or.inl h1
  · right
    simp only [if_neg h1] at h
    cases hf : parseOneofFieldS (a :: rest2) with
    | err e2 => simp only [hf] at h; cases h
    | oof => simp only [hf] at h; cases h
    | ok f r2 =>
      simp only [hf] at h
      obtain ⟨a1, rest1, heq, hpos, _⟩ := parseOneofFieldS_ok hf
      cases heq
      exact ⟨_, r2, h, by simpa using hpos⟩

/-- C3: every AST node produced by the spec-modelled parser is stamped
with the position of its construct's first significant (non-comment)
token.  In full: (a) the root message of an accepted input is stamped at
the input's first token, a non-comment token, and every node of the tree
carries the position of a significant token with non-negative Offset,
positive Line and positive Column; (b) each of the nine grammar
productions (message, option, field, map field, enum, oneof, reserved,
enum field, oneof field) stamps its node with the position of the token
at which the production is entered; and (c) each step of the message,
enum and oneof body loops parses its element - nested messages included
- stamped exactly at the first significant token of the remaining
stream, the body loop having collected the leading comments first; so
the entry token of (b) is always the construct's first significant
token. -/
theorem claim_c3 :
    (∀ (s : String) (m : SMessage) (r : List STok),
      ParseMessageSpec s = .ok m r →
      (∃ a rest, lexSpec s = a :: rest ∧ a.kind ≠ SKind.comment ∧ m.pos = a.pos) ∧
      msgAllP (fun p =>
        (∃ tk ∈ lexSpec s, tk.kind ≠ SKind.comment ∧ tk.pos = p) ∧
        0 ≤ p.offset ∧ 1 ≤ p.line ∧ 1 ≤ p.column) m) ∧
    ((∀ (fuel : Nat) (ts2 : List STok) (m2 : SMessage) (r2 : List STok),
        parseMessageS fuel ts2 = .ok m2 r2 → ∃ a rest, ts2 = a :: rest ∧ m2.pos = a.pos) ∧
      (∀ (ts2 : List STok) (o : SOption) (r2 : List STok),
        parseOptionS ts2 = .ok o r2 → ∃ a rest, ts2 = a :: rest ∧ o.pos = a.pos) ∧
      (∀ (ts2 : List STok) (f : SField) (r2 : List STok),
        parseFieldS ts2 = .ok f r2 → ∃ a rest, ts2 = a :: rest ∧ f.pos = a.pos) ∧
      (∀ (ts2 : List STok) (mf : SMapField) (r2 : List STok),
        parseMapFieldS ts2 = .ok mf r2 → ∃ a rest, ts2 = a :: rest ∧ mf.pos = a.pos) ∧
      (∀ (fuel : Nat) (ts2 : List STok) (e : SEnum) (r2 : List STok),
        parseEnumS fuel ts2 = .ok e r2 → ∃ a rest, ts2 = a :: rest ∧ e.pos = a.pos) ∧
      (∀ (fuel : Nat) (ts2 : List STok) (o2 : SOneof) (r2 : List STok),
        parseOneofS fuel ts2 = .ok o2 r2 → ∃ a rest, ts2 = a :: rest ∧ o2.pos = a.pos) ∧
      (∀ (ts2 : List STok) (v : SReserved) (r2 : List STok),
        parseReservedS ts2 = .ok v r2 → ∃ a rest, ts2 = a :: rest ∧ v.pos = a.pos) ∧
      (∀ (ts2 : List STok) (f : SEnumField) (r2 : List STok),
        parseEnumFieldS ts2 = .ok f r2 → ∃ a rest, ts2 = a :: rest ∧ f.pos = a.pos) ∧
      (∀ (ts2 : List STok) (f : SOneofField) (r2 : List STok),
        parseOneofFieldS ts2 = .ok f r2 → ∃ a rest, ts2 = a :: rest ∧ f.pos = a.pos)) ∧
    ((∀ (fuel : Nat) (acc : List SBodyElem) (ts2 : List STok) (body : List SBodyElem)
        (r2 : List STok) (a : STok) (rest2 : List STok),
        parseBodyS (fuel + 1) acc ts2 = .ok body r2 → firstSig ts2 = a :: rest2 →
        a.kind ≠ SKind.comment ∧ (a.text = "\x7d" ∨
          ∃ (e : SBodyElem) (ts3 : List STok),
            parseBodyS fuel (acc ++ [e]) ts3 = .ok body r2 ∧ elemPos e = a.pos)) ∧
      (∀ (fuel : Nat) (acc : List SEnumElem) (ts2 : List STok) (body : List SEnumElem)
        (r2 : List STok) (a : STok) (rest2 : List STok),
        parseEnumBodyS (fuel + 1) acc ts2 = .ok body r2 → firstSig ts2 = a :: rest2 →
        a.kind ≠ SKind.comment ∧ (a.text = "\x7d" ∨
          ∃ (e : SEnumElem) (ts3 : List STok),
            parseEnumBodyS fuel (acc ++ [e]) ts3 = .ok body r2 ∧ enumElemPos e = a.pos)) ∧
      (∀ (fuel : Nat) (acc : List SOneofField) (ts2 : List STok)
        (fields : List SOneofField) (r2 : List STok) (a : STok) (rest2 : List STok),
        parseOneofBodyS (fuel + 1) acc ts2 = .ok fields r2 → firstSig ts2 = a :: rest2 →
        a.kind ≠ SKind.comment ∧ (a.text = "\x7d" ∨
          ∃ (f : SOneofField) (ts3 : List STok),
            parseOneofBodyS fuel (acc ++ [f]) ts3 = .ok fields r2 ∧ f.pos = a.pos))) := by
  refine ⟨?_, ⟨?_, ?_, ?_, ?_, ?_, ?_, ?_, ?_, ?_⟩,
    parseBodyS_step, parseEnumBodyS_step, parseOneofBodyS_step⟩
  · intro s m r h
    have hlex : ∀ tk ∈ lexSpec s,
        (1 ≤ tk.pos.line ∧ 1 ≤ tk.pos.column) ∧
        (tk.kind = .comment → ∃ u, tk.text = "//" ++ u) :=
      fun tk htk => lexGo_ok (s.length + 1) s.data 1 1 1 (by omega) (by omega) tk htk
    have hsig : SigP (fun p =>
        (∃ tk ∈ lexSpec s, tk.kind ≠ SKind.comment ∧ tk.pos = p) ∧
        0 ≤ p.offset ∧ 1 ≤ p.line ∧ 1 ≤ p.column) (lexSpec s) := by
      intro tk htk hkind
      exact ⟨⟨tk, htk, hkind, rfl⟩, Nat.zero_le _, (hlex tk htk).1.1, (hlex tk htk).1.2⟩
    obtain ⟨a, rest, heq, htext, hpos, hbody, hsub⟩ := parseMessageS_ok h hsig
    have hane : a.kind ≠ SKind.comment := by
      intro hk
      obtain ⟨u, hu⟩ := (hlex a (heq ▸ List.mem_cons_self a rest)).2 hk
      exact slashes_ne_message u (hu ▸ htext)
    refine ⟨⟨a, rest, heq, hane, hpos⟩, ?_⟩
    rw [msgAllP_def]
    refine ⟨?_, hbody⟩
    rw [hpos]
    exact hsig a (heq ▸ List.mem_cons_self a rest) hane
  · intro fuel ts2 m2 r2 h2
    obtain ⟨a, rest, heq, _, hpos, _, _⟩ :=
      parseMessageS_ok (P := fun _ => True) h2 (fun _ _ _ => trivial)
    exact ⟨a, rest, heq, hpos⟩
  · intro ts2 o r2 h2
    obtain ⟨a, rest, heq, hpos, _⟩ := parseOptionS_ok h2
    exact ⟨a, rest, heq, hpos⟩
  · intro ts2 f r2 h2
    obtain ⟨a, rest, heq, hpos, _⟩ := parseFieldS_ok h2
    exact ⟨a, rest, heq, hpos⟩
  · intro ts2 mf r2 h2
    obtain ⟨a, rest, heq, hpos, _⟩ := parseMapFieldS_ok h2
    exact ⟨a, rest, heq, hpos⟩
  · intro fuel ts2 e r2 h2
    obtain ⟨⟨a, rest, heq, hpos⟩, -, -⟩ :=
      parseEnumS_ok (P := fun _ => True) h2 (fun _ _ _ => trivial)
    exact ⟨a, rest, heq, hpos⟩
  · intro fuel ts2 o2 r2 h2
    obtain ⟨⟨a, rest, heq, hpos⟩, -, -⟩ :=
      parseOneofS_ok (P := fun _ => True) h2 (fun _ _ _ => trivial)
    exact ⟨a, rest, heq, hpos⟩
  · intro ts2 v r2 h2
    obtain ⟨a, rest, heq, hpos, _⟩ := parseReservedS_ok h2
    exact ⟨a, rest, heq, hpos⟩
  · intro ts2 f r2 h2
    obtain ⟨a, rest, heq, hpos, _⟩ := parseEnumFieldS_ok h2
    exact ⟨a, rest, heq, hpos⟩
  · intro ts2 f r2 h2
    obtain ⟨a, rest, heq, hpos, _⟩ := parseOneofFieldS_ok h2
    exact ⟨a, rest, heq, hpos⟩

/-- C3 witness: the theorem applied to the concrete input
`message M \x7b \x7d` (root stamping and tree validity) and to a
concrete enum token stream (production entry stamping), each hypothesis
discharged by evaluation. -/
theorem claim_c3_witness :
    ParseMessageSpec "message M { }" = .ok (.mk "M" [] [] ⟨1, 1, 1⟩) [] ∧
    ((∃ a rest, lexSpec "message M { }" = a :: rest ∧ a.kind ≠ SKind.comment ∧
        (SMessage.mk "M" [] [] ⟨1, 1, 1⟩).pos = a.pos) ∧
      msgAllP (fun p =>
        (∃ tk ∈ lexSpec "message M { }", tk.kind ≠ SKind.comment ∧ tk.pos = p) ∧
        0 ≤ p.offset ∧ 1 ≤ p.line ∧ 1 ≤ p.column) (.mk "M" [] [] ⟨1, 1, 1⟩)) ∧
    parseEnumS 5 enumWitnessToks = .ok (.mk "E" [] [] ⟨3, 1, 3⟩) [] ∧
    (∃ a rest, enumWitnessToks = a :: rest ∧
      (SEnum.mk "E" [] [] ⟨3, 1, 3⟩).pos = a.pos) := by
  refine ⟨rfl, claim_c3.1 "message M { }" (.mk "M" [] [] ⟨1, 1, 1⟩) [] rfl, rfl, ?_⟩
  exact claim_c3.2.1.2.2.2.2.1 5 enumWitnessToks (.mk "E" [] [] ⟨3, 1, 3⟩) [] rfl

end SpecParser
